import Mathlib

/-!
# Verification of the OpenAPI schema-resolution engine

A shallow embedding of the reference / composition resolver implemented in
`src/parser.rs` (`OpenAPIParser`), together with proofs about its behaviour.

Modelling conventions:
* `IndexMap<String, V>` is modelled as an association list `List (String × V)`
  with insertion-order semantics (`imGet`, `imInsert`): `insert` on an existing
  key replaces the value in place, otherwise it appends at the end — exactly
  the semantics of the `indexmap` crate used by the source.
* `serde_json::Value` payloads (`example`) are never inspected by the
  resolver, only copied; they are modelled opaquely as `String`.
* Rust's recursion is modelled with an explicit fuel parameter where the
  source recursion is not structural (the reference chain walk, and the
  nested-`allOf` walk that can re-enter the components table).  A dedicated
  error value `fuelExhausted` marks fuel running out; theorems show the
  chosen fuel for the reference walk is never exhausted.
* `HashSet<String>` iteration order (used by `resolve_any_of_schema` when it
  turns the collected required-name set back into a `Vec`) is modelled by an
  explicit oracle `hashOrder : List String → List String`; an admissible
  oracle returns a permutation of the collected distinct names.
-/

set_option autoImplicit false

namespace OpenAPI

/-- Opaque stand-in for `serde_json::Value` payloads: the resolver only ever
clones them, never looks inside. -/
abbrev JsonValue := String

/-- Embedding of `OpenAPIDiscriminator` from `types.rs`: a property name plus an explicit
mapping. -/
structure Discriminator where
  propertyName : String
  mapping : List (String × String)
deriving DecidableEq, Repr

mutual
/-- Embedding of `OpenAPISchema` from `types.rs`.  Fields the resolver consults or fills
are modelled one-to-one; the remaining scalar facets (`default`, `enum`,
numeric/string/array bounds, `readOnly`, …) behave exactly like `format` /
`nullable` — they are carried through `..base_schema.clone()` unchanged and
never consulted — so `format` and `nullable` stand in for that whole group.
Constructor argument order:
`schemaType format title description exampleVal items required properties
 allOf oneOf anyOf oneOfVariants anyOfVariants nullable discriminator`. -/
inductive Schema where
  | mk :
    (schemaType : Option String) →
    (format : Option String) →
    (title : Option String) →
    (description : Option String) →
    (exampleVal : Option JsonValue) →
    (items : Option SchemaOrRef) →
    (required : List String) →
    (properties : List (String × SchemaOrRef)) →
    (allOf : List SchemaOrRef) →
    (oneOf : List SchemaOrRef) →
    (anyOf : List SchemaOrRef) →
    (oneOfVariants : Option (List (String × Schema))) →
    (anyOfVariants : Option (List (String × Schema))) →
    (nullable : Option Bool) →
    (discriminator : Option Discriminator) →
    Schema

/-- Embedding of `OpenAPISchemaOrRef` from `types.rs`: an inline schema or a `$ref`
pointer string. -/
inductive SchemaOrRef where
  | schema : Schema → SchemaOrRef
  | ref : String → SchemaOrRef
end

namespace Schema

def schemaType : Schema → Option String
  | .mk a _ _ _ _ _ _ _ _ _ _ _ _ _ _ => a

def format : Schema → Option String
  | .mk _ a _ _ _ _ _ _ _ _ _ _ _ _ _ => a

def title : Schema → Option String
  | .mk _ _ a _ _ _ _ _ _ _ _ _ _ _ _ => a

def description : Schema → Option String
  | .mk _ _ _ a _ _ _ _ _ _ _ _ _ _ _ => a

def exampleVal : Schema → Option JsonValue
  | .mk _ _ _ _ a _ _ _ _ _ _ _ _ _ _ => a

def items : Schema → Option SchemaOrRef
  | .mk _ _ _ _ _ a _ _ _ _ _ _ _ _ _ => a

def required : Schema → List String
  | .mk _ _ _ _ _ _ a _ _ _ _ _ _ _ _ => a

def properties : Schema → List (String × SchemaOrRef)
  | .mk _ _ _ _ _ _ _ a _ _ _ _ _ _ _ => a

def allOf : Schema → List SchemaOrRef
  | .mk _ _ _ _ _ _ _ _ a _ _ _ _ _ _ => a

def oneOf : Schema → List SchemaOrRef
  | .mk _ _ _ _ _ _ _ _ _ a _ _ _ _ _ => a

def anyOf : Schema → List SchemaOrRef
  | .mk _ _ _ _ _ _ _ _ _ _ a _ _ _ _ => a

def oneOfVariants : Schema → Option (List (String × Schema))
  | .mk _ _ _ _ _ _ _ _ _ _ _ a _ _ _ => a

def anyOfVariants : Schema → Option (List (String × Schema))
  | .mk _ _ _ _ _ _ _ _ _ _ _ _ a _ _ => a

def nullable : Schema → Option Bool
  | .mk _ _ _ _ _ _ _ _ _ _ _ _ _ a _ => a

def discriminator : Schema → Option Discriminator
  | .mk _ _ _ _ _ _ _ _ _ _ _ _ _ _ a => a

/-- Embedding of `OpenAPISchema::default()`: every optional field `None`, every list
empty. -/
def empty : Schema :=
  .mk none none none none none none [] [] [] [] [] none none none none

end Schema

/-! ## IndexMap operations (association lists, insertion order) -/

/-- Embedding of `IndexMap::get`: value of the first (unique) entry with the given key. -/
def imGet {α : Type} (m : List (String × α)) (k : String) : Option α :=
  (m.find? (fun p => p.1 = k)).map (·.2)

/-- Embedding of `IndexMap::insert`: replace in place when the key is present, otherwise
append at the end. -/
def imInsert {α : Type} (m : List (String × α)) (k : String) (v : α) :
    List (String × α) :=
  if m.any (fun p => p.1 = k) then
    m.map (fun p => if p.1 = k then (k, v) else p)
  else
    m ++ [(k, v)]

/-! ## Document model (`types.rs`) -/

/-- Embedding of `OpenAPIOperation`: only the fields the catalog functions consult
(`tags`) or that identify an operation (`operationId`, `summary`) are
modelled; parameters, bodies, responses, … are never consulted by
`get_operations_by_tag` / `get_all_tags`. -/
structure Operation where
  tags : List String
  summary : Option String
  operationId : Option String
deriving DecidableEq, Repr

/-- Embedding of `OpenAPIPathItem`: the eight operation slots, in struct order. -/
structure PathItem where
  get : Option Operation
  put : Option Operation
  post : Option Operation
  delete : Option Operation
  options : Option Operation
  head : Option Operation
  patch : Option Operation
  trace : Option Operation
deriving DecidableEq, Repr

/-- Embedding of `OpenAPITag`: only the name is consulted. -/
structure Tag where
  name : String
deriving DecidableEq, Repr

/-- Embedding of `OpenAPIComponents`: the resolver only consults the `schemas` table; the
other component tables (responses, parameters, …) are never read by the
functions under verification. -/
structure Components where
  schemas : List (String × SchemaOrRef)

/-- Embedding of `OpenAPIInfo` (title/version are what validation reads). -/
structure Info where
  title : String
  version : String

/-- Embedding of `OpenAPISpec`. -/
structure Spec where
  openapi : String
  info : Info
  paths : List (String × PathItem)
  components : Option Components
  tags : List Tag

/-- The schemas table of a document (empty when `components` is absent). -/
def Spec.schemas (spec : Spec) : List (String × SchemaOrRef) :=
  match spec.components with
  | some c => c.schemas
  | none => []

/-! ## Errors (`errors.rs` kinds used by the resolver) -/

/-- Error kinds produced by the resolver, carrying the offending reference
string.  `fuelExhausted` is the artifact of fuel-based modelling of the
source's unbounded recursion; it corresponds to no source error. -/
inductive RErr where
  | circular (reference : String)
  | external (reference : String)
  | notFound (reference : String)
  | fuelExhausted
deriving DecidableEq, Repr

/-! ## Reference resolver (`resolve_reference_with_visited`) -/

/-- Looking a name up in `components.schemas` (`components.schemas.get`),
`None` when the document has no components table. -/
def schemaLookup (spec : Spec) (name : String) : Option SchemaOrRef :=
  imGet spec.schemas name

/-- Embedding of `str::split('/')` at the character level (`String.splitOn` is opaque to
kernel reduction, so the split is spelled out): left-to-right split with
empty segments preserved, `[""]` on the empty string. -/
def splitOnSlash : List Char → List (List Char)
  | [] => [[]]
  | c :: rest =>
    match splitOnSlash rest with
    | [] => [[]]
    | g :: gs => if c = '/' then [] :: g :: gs else (c :: g) :: gs

/-- Embedding of `reference.starts_with("#/")` alone, at the character
level. -/
def startsWithHashSlash (reference : String) : Bool :=
  match reference.data with
  | '#' :: '/' :: _ => true
  | _ => false

/-- Embedding of `reference.starts_with("#/")` followed by `reference[2..].split('/')`:
`none` when the prefix check fails, otherwise the path segments. -/
def refParts (reference : String) : Option (List String) :=
  match reference.data with
  | '#' :: '/' :: rest => some ((splitOnSlash rest).map String.mk)
  | _ => none

/-- Embedding of `resolve_reference_with_visited` from `parser.rs`, with fuel.  The
visited set is threaded exactly as in the source: circular check first, then
the `#/` prefix check, then the `components/schemas/<name>` shape check
(`parts.len() >= 3` — trailing segments beyond the third are ignored), then
the table lookup, chaining through `Reference` entries. -/
def resolveRefFuel (spec : Spec) : Nat → List String → String → Except RErr Schema
  | 0, _, _ => .error .fuelExhausted
  | fuel + 1, visited, reference =>
    if reference ∈ visited then
      .error (.circular reference)
    else
      match refParts reference with
      | none => .error (.external reference)
      | some ("components" :: "schemas" :: name :: _) =>
        match schemaLookup spec name with
        | some (.schema s) => .ok s
        | some (.ref r) => resolveRefFuel spec fuel (reference :: visited) r
        | none => .error (.notFound reference)
      | some _ => .error (.notFound reference)

/-- The set of reference strings stored as direct values in the schemas
table: every pointer the chain walk can move to after its first step. -/
def refTargets (spec : Spec) : Finset String :=
  (spec.schemas.filterMap (fun p =>
    match p.2 with
    | .ref r => some r
    | .schema _ => none)).toFinset

/-- Fuel that provably suffices for any reference chain. -/
def refFuel (spec : Spec) : Nat :=
  (refTargets spec).card + 2

/-- Embedding of `resolve_reference` from `parser.rs`: fresh (empty) visited set on every
call. -/
def resolveReference (spec : Spec) (reference : String) : Except RErr Schema :=
  resolveRefFuel spec (refFuel spec) [] reference

/-! ## Composition resolver (`resolve_schema` and the three merges) -/

/-- The result seed shared by the three merge functions (the struct literal
at the top of each): `schema_type` forced to `"object"`, `properties` and
`required` emptied, `title`/`description`/`example` taken from the combining
schema, everything else copied from it by `..base_schema.clone()` — after
which `resolve_all_of_schema` clears `all_of` (and only `all_of`). -/
def allOfSeed (base : Schema) : Schema :=
  match base with
  | .mk _ fmt ttl dsc ex it _ _ _ oo an ov av nul dis =>
    .mk (some "object") fmt ttl dsc ex it [] [] [] oo an ov av nul dis

/-- The seed of `resolve_one_of_schema`: same literal, then `one_of` (and
only `one_of`) cleared. -/
def oneOfSeed (base : Schema) : Schema :=
  match base with
  | .mk _ fmt ttl dsc ex it _ _ ao _ an ov av nul dis =>
    .mk (some "object") fmt ttl dsc ex it [] [] ao [] an ov av nul dis

/-- The seed of `resolve_any_of_schema`: same literal, then `any_of` (and
only `any_of`) cleared. -/
def anyOfSeed (base : Schema) : Schema :=
  match base with
  | .mk _ fmt ttl dsc ex it _ _ ao oo _ ov av nul dis =>
    .mk (some "object") fmt ttl dsc ex it [] [] ao oo [] ov av nul dis

/-- One step of the `// Merge other schema properties (if not already set)`
logic: keep the accumulator's value when present, otherwise take the
member's. -/
def fillMeta {α : Type} (acc sub : Option α) : Option α :=
  match acc with
  | some x => some x
  | none => sub

/-- The properties loop of a merge: insert every pair of `ps` into `m` in
order (`IndexMap::insert`, later pairs override earlier values). -/
def insertAll {α : Type} (m ps : List (String × α)) : List (String × α) :=
  ps.foldl (fun m p => imInsert m p.1 p.2) m

/-- The required loop of the `allOf` merge: append each name unless already
present. -/
def dedupAppend (req names : List String) : List String :=
  names.foldl (fun req n => if n ∈ req then req else req ++ [n]) req

/-- The body of the `for sub_schema_or_ref in all_of` loop after the member
has been resolved to `sub`: merge `sub`'s properties, required names and
unset metadata into the accumulator. -/
def mergeAllOfInto (acc sub : Schema) : Schema :=
  match acc with
  | .mk ty fmt ttl dsc ex it req props ao oo an ov av nul dis =>
    .mk ty fmt (fillMeta ttl sub.title) (fillMeta dsc sub.description)
      (fillMeta ex sub.exampleVal) it (dedupAppend req sub.required)
      (insertAll props sub.properties) ao oo an ov av nul dis

/-- The member loop of `resolve_all_of_schema`, fuelled.  `acc` starts as
`allOfSeed base`; each member is resolved (recursing through nested `allOf`,
inline or behind a reference, but never through `oneOf`/`anyOf`) and merged.
Fuel decreases on every step so the recursion is structural; `ok` results
are unaffected by the extra fuel budget. -/
def allOfGo (spec : Spec) : Nat → Schema → List SchemaOrRef → Except RErr Schema
  | 0, _, _ => .error .fuelExhausted
  | _ + 1, acc, [] => .ok acc
  | f + 1, acc, m :: rest =>
    let subR : Except RErr Schema :=
      match m with
      | .schema s =>
        if s.allOf.isEmpty then .ok s else allOfGo spec f (allOfSeed s) s.allOf
      | .ref r =>
        match resolveReference spec r with
        | .error e => .error e
        | .ok t =>
          if t.allOf.isEmpty then .ok t else allOfGo spec f (allOfSeed t) t.allOf
    match subR with
    | .error e => .error e
    | .ok sub => allOfGo spec f (mergeAllOfInto acc sub) rest

/-- Embedding of `resolve_all_of_schema` from `parser.rs`. -/
def resolveAllOf (spec : Spec) (fuel : Nat) (base : Schema)
    (members : List SchemaOrRef) : Except RErr Schema :=
  allOfGo spec fuel (allOfSeed base) members

/-- Resolution of a single `allOf` member, split out of `allOfGo` for
specification purposes (same `match` as the loop body). -/
def allOfMemberF (spec : Spec) (fuel : Nat) : SchemaOrRef → Except RErr Schema
  | .schema s =>
    if s.allOf.isEmpty then .ok s else allOfGo spec fuel (allOfSeed s) s.allOf
  | .ref r =>
    match resolveReference spec r with
    | .error e => .error e
    | .ok t =>
      if t.allOf.isEmpty then .ok t else allOfGo spec fuel (allOfSeed t) t.allOf

/-- Predicate: `m` resolves (at some fuel) to the schema `s` as an `allOf` member. -/
def MemberResolves (spec : Spec) (m : SchemaOrRef) (s : Schema) : Prop :=
  ∃ fuel, allOfMemberF spec fuel m = .ok s

/-- One reference hop: how `resolve_one_of_schema` / `resolve_any_of_schema`
turn a variant entry into a schema (no recursion into the variant's own
composition keywords). -/
def oneHop (spec : Spec) : SchemaOrRef → Except RErr Schema
  | .schema s => .ok s
  | .ref r => resolveReference spec r

/-- Resolve every element, aborting at the first error — the shape of every
`for (index, variant_ref) in ... { let x = ...?; push }` loop. -/
def mapME {α β : Type} (f : α → Except RErr β) : List α → Except RErr (List β)
  | [] => .ok []
  | a :: as =>
    match f a with
    | .error e => .error e
    | .ok b =>
      match mapME f as with
      | .error e => .error e
      | .ok bs => .ok (b :: bs)

/-- Variant naming: the resolved variant's own `title` when present, else
`prefixStr` followed by the 1-based position (`format!("Variant{}", index + 1)`
with `prefixStr = "Variant"`, `"Option{}"` for `anyOf`). -/
def mkVariants (prefixStr : String) : Nat → List Schema → List (String × Schema)
  | _, [] => []
  | i, s :: rest =>
    (s.title.getD (prefixStr ++ toString (i + 1)), s) :: mkVariants prefixStr (i + 1) rest

def Schema.setOneOfVariants (s : Schema) (v : Option (List (String × Schema))) : Schema :=
  match s with
  | .mk ty fmt ttl dsc ex it req props ao oo an _ av nul dis =>
    .mk ty fmt ttl dsc ex it req props ao oo an v av nul dis

def Schema.setAnyOfVariants (s : Schema) (v : Option (List (String × Schema))) : Schema :=
  match s with
  | .mk ty fmt ttl dsc ex it req props ao oo an ov _ nul dis =>
    .mk ty fmt ttl dsc ex it req props ao oo an ov v nul dis

def Schema.setProperties (s : Schema) (props : List (String × SchemaOrRef)) : Schema :=
  match s with
  | .mk ty fmt ttl dsc ex it req _ ao oo an ov av nul dis =>
    .mk ty fmt ttl dsc ex it req props ao oo an ov av nul dis

def Schema.setRequired (s : Schema) (req : List String) : Schema :=
  match s with
  | .mk ty fmt ttl dsc ex it _ props ao oo an ov av nul dis =>
    .mk ty fmt ttl dsc ex it req props ao oo an ov av nul dis

/-- The property injected for a discriminator:
`OpenAPISchema { schema_type: Some("string"), ..Default::default() }`. -/
def stringPropSchema : Schema :=
  .mk (some "string") none none none none none [] [] [] [] [] none none none none

/-- The discriminator block of `resolve_one_of_schema`: inject a
string-typed property named by the discriminator unless a property of that
name already exists, and append it to `required` unless already present. -/
def injectDiscriminator (d : Option Discriminator) (s : Schema) : Schema :=
  match d with
  | none => s
  | some d =>
    let p := d.propertyName
    let s1 :=
      if (imGet s.properties p).isSome then s
      else s.setProperties (imInsert s.properties p (.schema stringPropSchema))
    if p ∈ s1.required then s1 else s1.setRequired (s1.required ++ [p])

/-- Embedding of `resolve_one_of_schema` from `parser.rs`. -/
def resolveOneOf (spec : Spec) (base : Schema) (oneOf : List SchemaOrRef) :
    Except RErr Schema :=
  match mapME (oneHop spec) oneOf with
  | .error e => .error e
  | .ok ss =>
    .ok (injectDiscriminator base.discriminator
      ((oneOfSeed base).setOneOfVariants (some (mkVariants "Variant" 0 ss))))

/-- The second loop of `resolve_any_of_schema`: union of every variant's
properties (later variants override on collision). -/
def collectProps (ss : List Schema) : List (String × SchemaOrRef) :=
  ss.foldl (fun m s => insertAll m s.properties) []

/-- The `HashSet` contents collected by `resolve_any_of_schema`: the distinct
required names in encounter order (the set abstracts the order away; its
iteration order is the `hashOrder` oracle's business). -/
def collectReq (ss : List Schema) : List String :=
  ss.foldl (fun l s => dedupAppend l s.required) []

/-- Embedding of `resolve_any_of_schema` from `parser.rs`.  `hashOrder` models
`all_required.into_iter().collect()` — the unspecified iteration order of the
`HashSet`; an admissible oracle returns a permutation of the collected
names.  The source resolves each variant reference twice (once for the
variant list, once for the property/required union); both hops are the same
pure lookup, so the single `mapME` result is used for both. -/
def resolveAnyOf (spec : Spec) (hashOrder : List String → List String)
    (base : Schema) (anyOf : List SchemaOrRef) : Except RErr Schema :=
  match mapME (oneHop spec) anyOf with
  | .error e => .error e
  | .ok ss =>
    .ok ((((anyOfSeed base).setAnyOfVariants
      (some (mkVariants "Option" 0 ss))).setProperties
      (collectProps ss)).setRequired (hashOrder (collectReq ss)))

/-- The dispatch of `resolve_schema` on an already-available schema node, in
source order: `allOf`, else `oneOf`, else `anyOf`, else the schema itself
(cloned). -/
def resolveSchemaCore (spec : Spec) (hashOrder : List String → List String)
    (fuel : Nat) (s : Schema) : Except RErr Schema :=
  if ¬ s.allOf.isEmpty then resolveAllOf spec fuel s s.allOf
  else if ¬ s.oneOf.isEmpty then resolveOneOf spec s s.oneOf
  else if ¬ s.anyOf.isEmpty then resolveAnyOf spec hashOrder s s.anyOf
  else .ok s

/-- Embedding of `resolve_schema` from `parser.rs`: dispatch directly on an inline
schema; for a reference, resolve it first and dispatch on the target. -/
def resolveSchema (spec : Spec) (hashOrder : List String → List String)
    (fuel : Nat) : SchemaOrRef → Except RErr Schema
  | .schema s => resolveSchemaCore spec hashOrder fuel s
  | .ref r =>
    match resolveReference spec r with
    | .error e => .error e
    | .ok t => resolveSchemaCore spec hashOrder fuel t

/-- The schema (inline, or reference target) `resolve_schema` dispatches
on. -/
def dispatchSource (spec : Spec) : SchemaOrRef → Except RErr Schema
  | .schema s => .ok s
  | .ref r => resolveReference spec r

/-- An admissible `HashSet` iteration-order oracle: on any list it returns
some permutation of it. -/
def AdmissibleOrder (hashOrder : List String → List String) : Prop :=
  ∀ l : List String, (hashOrder l).Perm l

/-! ## Schema catalog (`get_operations_by_tag`) -/

/-- The eight method slots of a path item, in the iteration order of
`get_operations_by_tag`. -/
def methodSlots (item : PathItem) : List (String × Option Operation) :=
  [("get", item.get), ("post", item.post), ("put", item.put),
   ("delete", item.delete), ("patch", item.patch), ("head", item.head),
   ("options", item.options), ("trace", item.trace)]

/-- The tag list an operation is filed under: the literal `"Default"` when
it declares none. -/
def effTags (op : Operation) : List String :=
  if op.tags.isEmpty then ["Default"] else op.tags

/-- Embedding of `tagged_operations.entry(tag).or_insert_with(Vec::new).push(entry)`:
append to the existing bucket, or add a new bucket at the end. -/
def tagPush (m : List (String × List (String × String × Operation)))
    (k : String) (v : String × String × Operation) :
    List (String × List (String × String × Operation)) :=
  if m.any (fun p => p.1 = k) then
    m.map (fun p => if p.1 = k then (p.1, p.2 ++ [v]) else p)
  else
    m ++ [(k, [v])]

/-- Bucket lookup in the tag map (empty list when the tag is absent). -/
def tagLookup (m : List (String × List (String × String × Operation)))
    (t : String) : List (String × String × Operation) :=
  ((m.find? (fun p => p.1 = t)).map (·.2)).getD []

/-- Embedding of `get_operations_by_tag` from `parser.rs`: scan each path item's eight
method slots, file each present operation under each of its effective tags.
The `HashMap` is modelled as a bucket list; only per-tag buckets (which are
deterministic) are observed by any claim. -/
def getOperationsByTag (spec : Spec) :
    List (String × List (String × String × Operation)) :=
  spec.paths.foldl (fun acc pe =>
    (methodSlots pe.2).foldl (fun acc ms =>
      match ms.2 with
      | none => acc
      | some op => (effTags op).foldl (fun acc t => tagPush acc t (pe.1, ms.1, op)) acc) acc) []

/-- How many entries of a bucket carry the given path and method (a path
item slot holds at most one operation, so path+method identify an
operation's entries). -/
def countEntry (l : List (String × String × Operation)) (p m : String) : Nat :=
  (l.filter (fun e => e.1 = p ∧ e.2.1 = m)).length

/-! ## Specification-side reformulations

Definitions in this section restate merge results in direct, order-free
terms (last occurrence wins, first-seen deduplication, first present
metadata value); theorems prove the resolver's folds equal to them. -/

/-- Value of the last pair with the given key (later entries override
earlier ones), `none` when absent. -/
def lookupLast {α : Type} (ps : List (String × α)) (k : String) : Option α :=
  (ps.reverse.find? (fun p => p.1 = k)).map (·.2)

/-- First-seen deduplication: keep each name's first occurrence, drop the
rest.  `seen` holds the names already kept. -/
def firstSeenDedupAux (seen : List String) : List String → List String
  | [] => []
  | x :: xs =>
    if x ∈ seen then firstSeenDedupAux seen xs
    else x :: firstSeenDedupAux (x :: seen) xs

/-- First-seen deduplication of a list. -/
def firstSeenDedup (l : List String) : List String :=
  firstSeenDedupAux [] l

/-- The first present value among a list of optionals. -/
def firstSome {α : Type} : List (Option α) → Option α
  | [] => none
  | o :: os => fillMeta o (firstSome os)

/-- Two resolution results that agree except possibly in the order of the
`required` list (which must be a permutation). -/
def ResultUpToRequiredPerm : Except RErr Schema → Except RErr Schema → Prop
  | .ok a, .ok b => a.required.Perm b.required ∧ a.setRequired [] = b.setRequired []
  | a, b => a = b

/-- The filing events a single method slot of a path contributes, in
order. -/
def slotEntries (p : String) (ms : String × Option Operation) :
    List (String × (String × String × Operation)) :=
  match ms.2 with
  | none => []
  | some op => (effTags op).map (fun t => (t, (p, ms.1, op)))

/-- The filing events one path item contributes, in slot order. -/
def pathEntries (pe : String × PathItem) :
    List (String × (String × String × Operation)) :=
  (methodSlots pe.2).flatMap (slotEntries pe.1)

/-- The stream of `(tag, (path, method, operation))` filing events produced
by `get_operations_by_tag`'s nested loops, in order. -/
def entryStream (spec : Spec) : List (String × (String × String × Operation)) :=
  spec.paths.flatMap pathEntries

/-! ## Concrete fixtures -/

/-- A document with no components table and no paths. -/
def specNC : Spec := ⟨"3.0.0", ⟨"t", "v"⟩, [], none, []⟩

/-- Components `{A: ref(B), B: ref(A)}` — the reference cycle of §8. -/
def cycleSpec : Spec :=
  ⟨"3.0.0", ⟨"t", "v"⟩, [],
   some ⟨[("A", .ref "#/components/schemas/B"),
          ("B", .ref "#/components/schemas/A")]⟩, []⟩

/-- A document whose components declare a single schema `User`. -/
def userSpec : Spec :=
  ⟨"3.0.0", ⟨"t", "v"⟩, [], some ⟨[("User", .schema stringPropSchema)]⟩, []⟩

/-- An inline integer-typed property schema. -/
def propInt : SchemaOrRef :=
  .schema (.mk (some "integer") none none none none none [] [] [] [] [] none none none none)

/-- An inline string-typed property schema. -/
def propStr : SchemaOrRef := .schema stringPropSchema

/-- Schema `A = {properties:{x:integer}, required:[x]}` of §8. -/
def schemaA : Schema :=
  .mk none none none none none none ["x"] [("x", propInt)] [] [] [] none none none none

/-- Schema `B = {properties:{y:string}, required:[y]}` of §8. -/
def schemaB : Schema :=
  .mk none none none none none none ["y"] [("y", propStr)] [] [] [] none none none none

/-- A variant of `B` declaring `x` (string-typed) for the override example. -/
def schemaBx : Schema :=
  .mk none none none none none none ["x"] [("x", propStr)] [] [] [] none none none none

/-- The combining schema `allOf:[A,B]`. -/
def allOfAB : Schema :=
  .mk none none none none none none [] [] [.schema schemaA, .schema schemaB] [] [] none none none none

/-- The combining schema `allOf:[A,Bx]` where both members declare `x`. -/
def allOfOverride : Schema :=
  .mk none none none none none none [] [] [.schema schemaA, .schema schemaBx] [] [] none none none none

/-- A schema declaring both `allOf` and `oneOf` simultaneously. -/
def bothComp : Schema :=
  .mk none none none none none none [] []
    [.schema Schema.empty] [.schema Schema.empty] [] none none none none

/-- The resolved form of `bothComp`: `allOf` cleared, `oneOf` surviving. -/
def bothCompResolved : Schema :=
  .mk (some "object") none none none none none [] [] []
    [.schema Schema.empty] [] none none none none

/-- A schema declaring `properties:{a}` and `required:[a]` of its own plus a
`oneOf`. -/
def oneOfBase : Schema :=
  .mk none none none none none none ["a"] [("a", propStr)] []
    [.schema Schema.empty] [] none none none none

/-- The resolved form of `oneOfBase`. -/
def oneOfBaseResolved : Schema :=
  .mk (some "object") none none none none none [] [] [] [] []
    (some [("Variant1", Schema.empty)]) none none none

/-- A `oneOf` member titled `Dog`. -/
def dogSchema : Schema :=
  .mk none none (some "Dog") none none none [] [] [] [] [] none none none none

/-- The `oneOf:[Dog, {}]` combining schema with discriminator `petType`
(§8's variant-naming example). -/
def petBase : Schema :=
  .mk none none none none none none [] [] []
    [.schema dogSchema, .schema Schema.empty] [] none none none
    (some ⟨"petType", []⟩)

/-- A member schema with `required:[a]`. -/
def reqA : Schema :=
  .mk none none none none none none ["a"] [] [] [] [] none none none none

/-- A member schema with `required:[b]`. -/
def reqB : Schema :=
  .mk none none none none none none ["b"] [] [] [] [] none none none none

/-- The combining schema `anyOf:[{required:[a]}, {required:[b]}]` of §8. -/
def anyAB : Schema :=
  .mk none none none none none none [] [] [] []
    [.schema reqA, .schema reqB] none none none none

/-- An inline number-typed schema. -/
def numberSchema : Schema :=
  .mk (some "number") none none none none none [] [] [] [] [] none none none none

/-- An `anyOf` whose variants are a string schema and a number schema. -/
def anyStrNum : Schema :=
  .mk none none none none none none [] [] [] []
    [.schema stringPropSchema, .schema numberSchema] none none none none

/-- The resolved form of `allOf:[A,B]`. -/
def allOfABResolved : Schema :=
  .mk (some "object") none none none none none ["x", "y"]
    [("x", propInt), ("y", propStr)] [] [] [] none none none none

/-- The resolved form of `allOf:[A,Bx]`: one property `x`, with `Bx`'s
definition winning. -/
def allOfOverrideResolved : Schema :=
  .mk (some "object") none none none none none ["x"]
    [("x", propStr)] [] [] [] none none none none

/-- The resolved form of `anyOf:[{required:[a]}, {required:[b]}]` under the
identity iteration order. -/
def anyABResolved : Schema :=
  .mk (some "object") none none none none none ["a", "b"] [] [] [] []
    none (some [("Option1", reqA), ("Option2", reqB)]) none none

/-- The resolved form of the `oneOf:[Dog, {}]` schema with discriminator
`petType`. -/
def petResolved : Schema :=
  .mk (some "object") none none none none none ["petType"]
    [("petType", .schema stringPropSchema)] [] [] []
    (some [("Dog", dogSchema), ("Variant2", Schema.empty)]) none none
    (some ⟨"petType", []⟩)

/-- An operation tagged `x` and `y`. -/
def opXY : Operation := ⟨["x", "y"], none, some "opxy"⟩

/-- An operation with an empty tag list. -/
def opNoTags : Operation := ⟨[], none, some "opnone"⟩

/-- An operation whose tag list repeats `x`. -/
def opDup : Operation := ⟨["x", "x"], none, some "opdup"⟩

/-- A path item with `get = opNoTags` and `post = opXY`. -/
def item1 : PathItem := ⟨some opNoTags, none, some opXY, none, none, none, none, none⟩

/-- A path item with `get = opDup`. -/
def item2 : PathItem := ⟨some opDup, none, none, none, none, none, none, none⟩

/-- A document with paths `/p` (item1) and `/q` (item2). -/
def specOps : Spec := ⟨"3.0.0", ⟨"t", "v"⟩, [("/p", item1), ("/q", item2)], none, []⟩

/-! ## Reference resolver lemmas -/

theorem schemaLookup_ref_mem_refTargets {spec : Spec} {name r : String}
    (h : schemaLookup spec name = some (.ref r)) : r ∈ refTargets spec := by
  unfold schemaLookup imGet at h
  obtain ⟨p, hfind, hval⟩ := Option.map_eq_some'.mp h
  have hp : p ∈ spec.schemas := List.mem_of_find?_eq_some hfind
  unfold refTargets
  rw [List.mem_toFinset]
  refine List.mem_filterMap.mpr ⟨p, hp, ?_⟩
  rw [hval]

/-- Fuel sufficiency for the reference walk: fuel one more than the number
of reference-valued component entries not yet visited always suffices. -/
theorem resolveRefFuel_ne_fuelError (spec : Spec) :
    ∀ (fuel : Nat) (visited : List String) (reference : String),
      (if reference ∈ visited then 1
       else 2 + ((refTargets spec).filter
         (fun t => t ∉ visited ∧ t ≠ reference)).card) ≤ fuel →
      resolveRefFuel spec fuel visited reference ≠ .error .fuelExhausted := by
  intro fuel
  induction fuel with
  | zero =>
    intro visited reference h
    split at h <;> omega
  | succ n ih =>
    intro visited reference h
    by_cases hv : reference ∈ visited
    · simp [resolveRefFuel, hv]
    · rw [if_neg hv] at h
      simp only [resolveRefFuel, if_neg hv]
      cases hrp : refParts reference with
      | none => simp
      | some parts =>
        match parts with
        | [] => simp
        | [p1] => simp
        | [p1, p2] => simp
        | p1 :: p2 :: name :: rest =>
          by_cases h1 : p1 = "components"
          · by_cases h2 : p2 = "schemas"
            · subst h1; subst h2
              cases hl : schemaLookup spec name with
              | none => simp [hl]
              | some sr =>
                cases sr with
                | schema s => simp [hl]
                | ref r =>
                  simp only [hl]
                  apply ih
                  have hr : r ∈ refTargets spec := schemaLookup_ref_mem_refTargets hl
                  by_cases hrv : r ∈ reference :: visited
                  · rw [if_pos hrv]; omega
                  · rw [if_neg hrv]
                    have hrv' : r ∉ visited ∧ r ≠ reference := by
                      constructor
                      · exact fun hc => hrv (List.mem_cons_of_mem _ hc)
                      · intro hc; exact hrv (hc ▸ List.mem_cons_self _ _)
                    have hA : r ∈ (refTargets spec).filter
                        (fun t => t ∉ visited ∧ t ≠ reference) := by
                      rw [Finset.mem_filter]; exact ⟨hr, hrv'⟩
                    have hBA : ((refTargets spec).filter
                          (fun t => t ∉ reference :: visited ∧ t ≠ r))
                        = ((refTargets spec).filter
                          (fun t => t ∉ visited ∧ t ≠ reference)).erase r := by
                      ext t
                      simp only [Finset.mem_filter, Finset.mem_erase, List.mem_cons]
                      tauto
                    rw [hBA, Finset.card_erase_of_mem hA]
                    have hApos : 0 < ((refTargets spec).filter
                        (fun t => t ∉ visited ∧ t ≠ reference)).card :=
                      Finset.card_pos.mpr ⟨r, hA⟩
                    omega
            · simp [h2]
          · simp [h1]

/-- The top-level call never exhausts its fuel: the reference walk always
terminates with an answer or a source error. -/
theorem resolveReference_ne_fuelError (spec : Spec) (reference : String) :
    resolveReference spec reference ≠ .error .fuelExhausted := by
  apply resolveRefFuel_ne_fuelError
  rw [if_neg (List.not_mem_nil reference), refFuel]
  have := Finset.card_filter_le (refTargets spec)
    (fun t => t ∉ ([] : List String) ∧ t ≠ reference)
  omega

end OpenAPI

namespace OpenAPI

theorem startsWithHashSlash_false_refParts {reference : String}
    (h : startsWithHashSlash reference = false) : refParts reference = none := by
  unfold startsWithHashSlash at h
  unfold refParts
  split at h
  · exact absurd h (by simp)
  · rfl

/-- C7 (amended): a pointer rejected by the `starts_with("#/")` test fails
as an external-reference error; a pointer passing it whose path either does
not have `components`/`schemas` as its first two segments or has fewer than
three segments, or whose third segment names no schema, fails as a
reference-not-found error.  (Unlike the original claim, segments after the
third are ignored, not rejected: `#/components/schemas/<name>/<junk>`
resolves `<name>`.) -/
theorem c7_failing_pointer_classification (spec : Spec) (reference : String) :
    (startsWithHashSlash reference = false →
      resolveReference spec reference = .error (.external reference)) ∧
    (∀ name rest,
      refParts reference = some ("components" :: "schemas" :: name :: rest) →
      schemaLookup spec name = none →
      resolveReference spec reference = .error (.notFound reference)) ∧
    (∀ parts, refParts reference = some parts →
      (∀ name rest, parts ≠ "components" :: "schemas" :: name :: rest) →
      resolveReference spec reference = .error (.notFound reference)) := by
  have hstep : resolveReference spec reference
      = (match refParts reference with
        | none => .error (.external reference)
        | some ("components" :: "schemas" :: name :: _) =>
          match schemaLookup spec name with
          | some (.schema s) => .ok s
          | some (.ref r) =>
            resolveRefFuel spec ((refTargets spec).card + 1) [reference] r
          | none => .error (.notFound reference)
        | some _ => .error (.notFound reference)) := by
    rw [resolveReference, refFuel]
    rw [show (refTargets spec).card + 2 = ((refTargets spec).card + 1) + 1 from rfl]
    rw [resolveRefFuel]
    rw [if_neg (List.not_mem_nil reference)]
  refine ⟨fun h => ?_, fun name rest hrp hl => ?_, fun parts hrp hshape => ?_⟩
  · rw [hstep, startsWithHashSlash_false_refParts h]
  · rw [hstep, hrp]
    simp [hl]
  · rw [hstep, hrp]
    split <;> simp_all

/-- C7 counterexample: the claim says a `#/`-prefixed pointer whose
remainder is not exactly `components/schemas/<name>` fails as
reference-not-found; but `#/components/schemas/User/extra` (trailing
segment) resolves successfully. -/
theorem c7_counterexample :
    resolveReference userSpec "#/components/schemas/User/extra" = .ok stringPropSchema ∧
    resolveReference userSpec "#/components/schemas/User/extra"
      ≠ .error (.notFound "#/components/schemas/User/extra") := by
  refine ⟨rfl, fun h => ?_⟩
  have h2 : (Except.ok stringPropSchema : Except RErr Schema)
      = .error (.notFound "#/components/schemas/User/extra") := h
  exact Except.noConfusion h2

/-- C7 witness: concrete classifications — the empty string and a
cross-file pointer are external-reference errors; a missing name and a
wrong path shape are reference-not-found errors. -/
theorem c7_witness :
    resolveReference userSpec "" = .error (.external "") ∧
    resolveReference userSpec "other.yaml#/components/schemas/User"
      = .error (.external "other.yaml#/components/schemas/User") ∧
    resolveReference userSpec "#/components/schemas/Ghost"
      = .error (.notFound "#/components/schemas/Ghost") ∧
    resolveReference userSpec "#/definitions/User"
      = .error (.notFound "#/definitions/User") := by
  refine ⟨(c7_failing_pointer_classification userSpec "").1 rfl,
    (c7_failing_pointer_classification userSpec _).1 rfl,
    (c7_failing_pointer_classification userSpec _).2.1 "Ghost" [] rfl rfl,
    (c7_failing_pointer_classification userSpec _).2.2 ["definitions", "User"] rfl ?_⟩
  intro name rest
  simp

/-- C8: a pointer already in the visited set of the current chain fails as
a circular-reference error whenever any fuel remains, and the top-level
reference walk (with its sufficient fuel budget) always terminates with an
answer or a source error — it never exhausts its fuel. -/
theorem c8_cycle_detection_and_termination (spec : Spec) (fuel : Nat)
    (visited : List String) (reference : String)
    (hmem : reference ∈ visited) (hfuel : 0 < fuel) :
    resolveRefFuel spec fuel visited reference = .error (.circular reference) ∧
    ∀ (spec2 : Spec) (ref2 : String),
      resolveReference spec2 ref2 ≠ .error .fuelExhausted := by
  refine ⟨?_, fun s2 r2 => resolveReference_ne_fuelError s2 r2⟩
  obtain ⟨f, rfl⟩ : ∃ f, fuel = f + 1 := ⟨fuel - 1, by omega⟩
  simp [resolveRefFuel, hmem]

/-- C8 witness: the two-component cycle `{A: ref(B), B: ref(A)}` — the
chain `A → B → A` revisits `A` and fails as a circular reference. -/
theorem c8_witness :
    resolveRefFuel cycleSpec 1 ["#/components/schemas/A"] "#/components/schemas/A"
      = .error (.circular "#/components/schemas/A") ∧
    resolveReference cycleSpec "#/components/schemas/A"
      = .error (.circular "#/components/schemas/A") :=
  ⟨(c8_cycle_detection_and_termination cycleSpec 1 ["#/components/schemas/A"]
      "#/components/schemas/A" (by simp) (by omega)).1, rfl⟩

end OpenAPI

namespace OpenAPI

/-! ## Projection lemmas for the merge building blocks -/

theorem allOfSeed_proj (base : Schema) :
    (allOfSeed base).schemaType = some "object" ∧
    (allOfSeed base).title = base.title ∧
    (allOfSeed base).description = base.description ∧
    (allOfSeed base).exampleVal = base.exampleVal ∧
    (allOfSeed base).required = [] ∧
    (allOfSeed base).properties = [] ∧
    (allOfSeed base).allOf = [] ∧
    (allOfSeed base).oneOf = base.oneOf ∧
    (allOfSeed base).anyOf = base.anyOf := by
  cases base
  exact ⟨rfl, rfl, rfl, rfl, rfl, rfl, rfl, rfl, rfl⟩

theorem oneOfSeed_proj (base : Schema) :
    (oneOfSeed base).schemaType = some "object" ∧
    (oneOfSeed base).title = base.title ∧
    (oneOfSeed base).required = [] ∧
    (oneOfSeed base).properties = [] ∧
    (oneOfSeed base).allOf = base.allOf ∧
    (oneOfSeed base).oneOf = [] ∧
    (oneOfSeed base).anyOf = base.anyOf := by
  cases base
  exact ⟨rfl, rfl, rfl, rfl, rfl, rfl, rfl⟩

theorem anyOfSeed_proj (base : Schema) :
    (anyOfSeed base).schemaType = some "object" ∧
    (anyOfSeed base).required = [] ∧
    (anyOfSeed base).properties = [] ∧
    (anyOfSeed base).allOf = base.allOf ∧
    (anyOfSeed base).oneOf = base.oneOf ∧
    (anyOfSeed base).anyOf = [] := by
  cases base
  exact ⟨rfl, rfl, rfl, rfl, rfl, rfl⟩

theorem mergeAllOfInto_proj (acc sub : Schema) :
    (mergeAllOfInto acc sub).schemaType = acc.schemaType ∧
    (mergeAllOfInto acc sub).title = fillMeta acc.title sub.title ∧
    (mergeAllOfInto acc sub).description = fillMeta acc.description sub.description ∧
    (mergeAllOfInto acc sub).exampleVal = fillMeta acc.exampleVal sub.exampleVal ∧
    (mergeAllOfInto acc sub).required = dedupAppend acc.required sub.required ∧
    (mergeAllOfInto acc sub).properties = insertAll acc.properties sub.properties ∧
    (mergeAllOfInto acc sub).allOf = acc.allOf ∧
    (mergeAllOfInto acc sub).oneOf = acc.oneOf ∧
    (mergeAllOfInto acc sub).anyOf = acc.anyOf := by
  cases acc
  exact ⟨rfl, rfl, rfl, rfl, rfl, rfl, rfl, rfl, rfl⟩

theorem setProperties_proj (s : Schema) (v : List (String × SchemaOrRef)) :
    (s.setProperties v).properties = v ∧
    (s.setProperties v).required = s.required ∧
    (s.setProperties v).schemaType = s.schemaType ∧
    (s.setProperties v).allOf = s.allOf ∧
    (s.setProperties v).oneOf = s.oneOf ∧
    (s.setProperties v).anyOf = s.anyOf ∧
    (s.setProperties v).oneOfVariants = s.oneOfVariants ∧
    (s.setProperties v).anyOfVariants = s.anyOfVariants := by
  cases s
  exact ⟨rfl, rfl, rfl, rfl, rfl, rfl, rfl, rfl⟩

theorem setRequired_proj (s : Schema) (v : List String) :
    (s.setRequired v).required = v ∧
    (s.setRequired v).properties = s.properties ∧
    (s.setRequired v).schemaType = s.schemaType ∧
    (s.setRequired v).allOf = s.allOf ∧
    (s.setRequired v).oneOf = s.oneOf ∧
    (s.setRequired v).anyOf = s.anyOf ∧
    (s.setRequired v).oneOfVariants = s.oneOfVariants ∧
    (s.setRequired v).anyOfVariants = s.anyOfVariants := by
  cases s
  exact ⟨rfl, rfl, rfl, rfl, rfl, rfl, rfl, rfl⟩

theorem setOneOfVariants_proj (s : Schema) (v : Option (List (String × Schema))) :
    (s.setOneOfVariants v).oneOfVariants = v ∧
    (s.setOneOfVariants v).properties = s.properties ∧
    (s.setOneOfVariants v).required = s.required ∧
    (s.setOneOfVariants v).schemaType = s.schemaType ∧
    (s.setOneOfVariants v).allOf = s.allOf ∧
    (s.setOneOfVariants v).oneOf = s.oneOf ∧
    (s.setOneOfVariants v).anyOf = s.anyOf := by
  cases s
  exact ⟨rfl, rfl, rfl, rfl, rfl, rfl, rfl⟩

theorem setAnyOfVariants_proj (s : Schema) (v : Option (List (String × Schema))) :
    (s.setAnyOfVariants v).anyOfVariants = v ∧
    (s.setAnyOfVariants v).properties = s.properties ∧
    (s.setAnyOfVariants v).required = s.required ∧
    (s.setAnyOfVariants v).schemaType = s.schemaType ∧
    (s.setAnyOfVariants v).allOf = s.allOf ∧
    (s.setAnyOfVariants v).oneOf = s.oneOf ∧
    (s.setAnyOfVariants v).anyOf = s.anyOf := by
  cases s
  exact ⟨rfl, rfl, rfl, rfl, rfl, rfl, rfl⟩

theorem injectDiscriminator_proj (d : Option Discriminator) (s : Schema) :
    (injectDiscriminator d s).schemaType = s.schemaType ∧
    (injectDiscriminator d s).allOf = s.allOf ∧
    (injectDiscriminator d s).oneOf = s.oneOf ∧
    (injectDiscriminator d s).anyOf = s.anyOf ∧
    (injectDiscriminator d s).oneOfVariants = s.oneOfVariants := by
  cases d with
  | none => exact ⟨rfl, rfl, rfl, rfl, rfl⟩
  | some d =>
    simp only [injectDiscriminator]
    split <;> split <;>
      simp [setRequired_proj, setProperties_proj,
        (setRequired_proj _ _).2.2.1, (setProperties_proj _ _).2.2.1]

/-! ## Fold lemmas for the allOf merge -/

theorem fillMeta_assoc {α : Type} (a b c : Option α) :
    fillMeta (fillMeta a b) c = fillMeta a (fillMeta b c) := by
  cases a <;> cases b <;> rfl

theorem fillMeta_none {α : Type} (a : Option α) : fillMeta a none = a := by
  cases a <;> rfl

theorem foldl_merge_stable (ss : List Schema) (acc : Schema) :
    (ss.foldl mergeAllOfInto acc).allOf = acc.allOf ∧
    (ss.foldl mergeAllOfInto acc).oneOf = acc.oneOf ∧
    (ss.foldl mergeAllOfInto acc).anyOf = acc.anyOf ∧
    (ss.foldl mergeAllOfInto acc).schemaType = acc.schemaType := by
  induction ss generalizing acc with
  | nil => exact ⟨rfl, rfl, rfl, rfl⟩
  | cons s ss ih =>
    obtain ⟨h1, h2, h3, h4⟩ := ih (mergeAllOfInto acc s)
    obtain ⟨m1, _, _, _, _, _, m7, m8, m9⟩ := mergeAllOfInto_proj acc s
    exact ⟨by rw [List.foldl_cons, h1, m7], by rw [List.foldl_cons, h2, m8],
      by rw [List.foldl_cons, h3, m9], by rw [List.foldl_cons, h4, m1]⟩

theorem foldl_merge_title (ss : List Schema) (acc : Schema) :
    (ss.foldl mergeAllOfInto acc).title
      = fillMeta acc.title (firstSome (ss.map Schema.title)) := by
  induction ss generalizing acc with
  | nil => exact (fillMeta_none _).symm
  | cons s ss ih =>
    rw [List.foldl_cons, ih, (mergeAllOfInto_proj acc s).2.1, fillMeta_assoc]
    rfl

theorem foldl_merge_description (ss : List Schema) (acc : Schema) :
    (ss.foldl mergeAllOfInto acc).description
      = fillMeta acc.description (firstSome (ss.map Schema.description)) := by
  induction ss generalizing acc with
  | nil => exact (fillMeta_none _).symm
  | cons s ss ih =>
    rw [List.foldl_cons, ih, (mergeAllOfInto_proj acc s).2.2.1, fillMeta_assoc]
    rfl

theorem foldl_merge_exampleVal (ss : List Schema) (acc : Schema) :
    (ss.foldl mergeAllOfInto acc).exampleVal
      = fillMeta acc.exampleVal (firstSome (ss.map Schema.exampleVal)) := by
  induction ss generalizing acc with
  | nil => exact (fillMeta_none _).symm
  | cons s ss ih =>
    rw [List.foldl_cons, ih, (mergeAllOfInto_proj acc s).2.2.2.1, fillMeta_assoc]
    rfl

theorem dedupAppend_append (acc xs ys : List String) :
    dedupAppend acc (xs ++ ys) = dedupAppend (dedupAppend acc xs) ys := by
  simp [dedupAppend, List.foldl_append]

theorem insertAll_append {α : Type} (m xs ys : List (String × α)) :
    insertAll m (xs ++ ys) = insertAll (insertAll m xs) ys := by
  simp [insertAll, List.foldl_append]

theorem foldl_merge_required (ss : List Schema) (acc : Schema) :
    (ss.foldl mergeAllOfInto acc).required
      = dedupAppend acc.required (ss.flatMap Schema.required) := by
  induction ss generalizing acc with
  | nil => rfl
  | cons s ss ih =>
    rw [List.foldl_cons, ih, (mergeAllOfInto_proj acc s).2.2.2.2.1,
      List.flatMap_cons, dedupAppend_append]

theorem foldl_merge_properties (ss : List Schema) (acc : Schema) :
    (ss.foldl mergeAllOfInto acc).properties
      = insertAll acc.properties (ss.flatMap Schema.properties) := by
  induction ss generalizing acc with
  | nil => rfl
  | cons s ss ih =>
    rw [List.foldl_cons, ih, (mergeAllOfInto_proj acc s).2.2.2.2.2.1,
      List.flatMap_cons, insertAll_append]

/-! ## First-seen deduplication -/

theorem dedupAppend_eq_append_firstSeen (l : List String) :
    ∀ (acc seen : List String), (∀ x, x ∈ seen ↔ x ∈ acc) →
      dedupAppend acc l = acc ++ firstSeenDedupAux seen l := by
  induction l with
  | nil => intro acc seen _; simp [dedupAppend, firstSeenDedupAux]
  | cons x xs ih =>
    intro acc seen hseen
    by_cases hx : x ∈ acc
    · rw [show dedupAppend acc (x :: xs) = dedupAppend acc xs by
        simp [dedupAppend, hx]]
      rw [show firstSeenDedupAux seen (x :: xs) = firstSeenDedupAux seen xs by
        simp [firstSeenDedupAux, (hseen x).mpr hx]]
      exact ih acc seen hseen
    · have hxs : x ∉ seen := fun hc => hx ((hseen x).mp hc)
      rw [show dedupAppend acc (x :: xs) = dedupAppend (acc ++ [x]) xs by
        simp [dedupAppend, hx]]
      rw [show firstSeenDedupAux seen (x :: xs) = x :: firstSeenDedupAux (x :: seen) xs by
        simp [firstSeenDedupAux, hxs]]
      rw [ih (acc ++ [x]) (x :: seen) (by intro y; simp [hseen y, or_comm])]
      simp

theorem dedupAppend_nil_eq_firstSeenDedup (l : List String) :
    dedupAppend [] l = firstSeenDedup l := by
  rw [firstSeenDedup, dedupAppend_eq_append_firstSeen l [] [] (by simp)]
  simp

theorem mem_firstSeenDedupAux (l : List String) :
    ∀ (seen : List String) (x : String),
      x ∈ firstSeenDedupAux seen l ↔ x ∈ l ∧ x ∉ seen := by
  induction l with
  | nil => intro seen x; simp [firstSeenDedupAux]
  | cons y ys ih =>
    intro seen x
    by_cases hy : y ∈ seen
    · rw [show firstSeenDedupAux seen (y :: ys) = firstSeenDedupAux seen ys by
        simp [firstSeenDedupAux, hy]]
      rw [ih]
      constructor
      · rintro ⟨h1, h2⟩; exact ⟨List.mem_cons_of_mem _ h1, h2⟩
      · rintro ⟨h1, h2⟩
        rcases List.mem_cons.mp h1 with rfl | h1
        · exact absurd hy h2
        · exact ⟨h1, h2⟩
    · rw [show firstSeenDedupAux seen (y :: ys) = y :: firstSeenDedupAux (y :: seen) ys by
        simp [firstSeenDedupAux, hy]]
      rw [List.mem_cons, ih]
      constructor
      · rintro (rfl | ⟨h1, h2⟩)
        · exact ⟨List.mem_cons_self _ _, hy⟩
        · refine ⟨List.mem_cons_of_mem _ h1, fun hc => h2 (List.mem_cons_of_mem _ hc)⟩
      · rintro ⟨h1, h2⟩
        rcases List.mem_cons.mp h1 with rfl | h1
        · exact Or.inl rfl
        · by_cases hxy : x = y
          · exact Or.inl hxy
          · exact Or.inr ⟨h1, by simp [List.mem_cons, hxy, h2]⟩

theorem nodup_firstSeenDedupAux (l : List String) :
    ∀ seen : List String, (firstSeenDedupAux seen l).Nodup := by
  induction l with
  | nil => intro seen; simp [firstSeenDedupAux]
  | cons y ys ih =>
    intro seen
    by_cases hy : y ∈ seen
    · rw [show firstSeenDedupAux seen (y :: ys) = firstSeenDedupAux seen ys by
        simp [firstSeenDedupAux, hy]]
      exact ih seen
    · rw [show firstSeenDedupAux seen (y :: ys) = y :: firstSeenDedupAux (y :: seen) ys by
        simp [firstSeenDedupAux, hy]]
      refine List.nodup_cons.mpr ⟨fun hc => ?_, ih (y :: seen)⟩
      exact ((mem_firstSeenDedupAux ys (y :: seen) y).mp hc).2 (List.mem_cons_self _ _)

theorem mem_firstSeenDedup (l : List String) (x : String) :
    x ∈ firstSeenDedup l ↔ x ∈ l := by
  rw [firstSeenDedup, mem_firstSeenDedupAux]
  simp

theorem nodup_firstSeenDedup (l : List String) : (firstSeenDedup l).Nodup :=
  nodup_firstSeenDedupAux l []

/-! ## Insertion characterization (last write wins) -/

theorem imGet_cons {α : Type} (p : String × α) (t : List (String × α)) (k : String) :
    imGet (p :: t) k = if p.1 = k then some p.2 else imGet t k := by
  by_cases h : p.1 = k
  · simp [imGet, List.find?_cons_of_pos, h]
  · simp [imGet, List.find?_cons_of_neg, h]

theorem any_key_eq_isSome {α : Type} (m : List (String × α)) (k : String) :
    m.any (fun p => p.1 = k) = (imGet m k).isSome := by
  induction m with
  | nil => rfl
  | cons p t ih =>
    rw [List.any_cons, imGet_cons]
    by_cases hp : p.1 = k
    · simp [hp]
    · simp [hp, ih]

theorem imGet_append_single {α : Type} (m : List (String × α)) (k k' : String) (v : α) :
    imGet (m ++ [(k, v)]) k' = fillMeta (imGet m k') (if k = k' then some v else none) := by
  induction m with
  | nil =>
    rw [List.nil_append, imGet_cons]
    rfl
  | cons p t ih =>
    rw [List.cons_append, imGet_cons, imGet_cons]
    by_cases hp : p.1 = k'
    · rw [if_pos hp, if_pos hp]
      rfl
    · rw [if_neg hp, if_neg hp, ih]

theorem fillMeta_some {α : Type} (x : α) (y : Option α) : fillMeta (some x) y = some x := rfl

theorem fillMeta_none_left {α : Type} (y : Option α) : fillMeta none y = y := rfl

theorem imGet_map_replace {α : Type} (m : List (String × α)) (k k' : String) (v : α) :
    imGet (m.map (fun p => if p.1 = k then (k, v) else p)) k'
      = if k' = k then (if (imGet m k).isSome then some v else none)
        else imGet m k' := by
  induction m with
  | nil =>
    by_cases hk : k' = k <;> simp [imGet, hk]
  | cons p t ih =>
    by_cases hp : p.1 = k <;> by_cases hk : k' = k
    · subst hk
      simp [List.map_cons, hp, imGet_cons]
    · have hk' : ¬ k = k' := fun h => hk h.symm
      have hpk' : ¬ p.1 = k' := by rw [hp]; exact hk'
      simp [List.map_cons, hp, imGet_cons, hk, hk', hpk', ih]
    · subst hk
      simp [List.map_cons, hp, imGet_cons, ih]
    · by_cases hpk' : p.1 = k'
      · simp [List.map_cons, hp, imGet_cons, hk, hpk']
      · simp [List.map_cons, hp, imGet_cons, hk, hpk', ih]

theorem imGet_imInsert {α : Type} (m : List (String × α)) (k k' : String) (v : α) :
    imGet (imInsert m k v) k' = if k' = k then some v else imGet m k' := by
  rw [imInsert]
  split
  · rename_i h
    rw [imGet_map_replace]
    rw [any_key_eq_isSome] at h
    by_cases hk : k' = k <;> simp [hk, h]
  · rename_i h
    rw [imGet_append_single]
    rw [any_key_eq_isSome] at h
    by_cases hk : k' = k
    · subst hk
      have hnone : imGet m k' = none := by
        cases hval : imGet m k' with
        | none => rfl
        | some w => rw [hval] at h; simp at h
      simp [hnone, fillMeta_none_left]
    · have hk' : ¬ k = k' := fun hc => hk hc.symm
      simp [hk, hk', fillMeta_none]

theorem lookupLast_append_single {α : Type} (ps : List (String × α)) (p : String × α)
    (k : String) :
    lookupLast (ps ++ [p]) k = if p.1 = k then some p.2 else lookupLast ps k := by
  rw [lookupLast, lookupLast, List.reverse_append]
  by_cases hp : p.1 = k
  · simp [List.find?_cons_of_pos, hp]
  · simp [List.find?_cons_of_neg, hp]

theorem imGet_insertAll {α : Type} (m ps : List (String × α)) (k : String) :
    imGet (insertAll m ps) k = fillMeta (lookupLast ps k) (imGet m k) := by
  induction ps using List.reverseRecOn with
  | nil => simp [insertAll, lookupLast, fillMeta_none_left]
  | append_singleton ps p ih =>
    rw [show insertAll m (ps ++ [p]) = imInsert (insertAll m ps) p.1 p.2 by
      simp [insertAll, List.foldl_append]]
    rw [imGet_imInsert, lookupLast_append_single, ih]
    by_cases hp : p.1 = k
    · rw [if_pos hp, if_pos hp.symm]
      rfl
    · have hk : ¬ k = p.1 := fun hc => hp hc.symm
      rw [if_neg hp, if_neg hk]

/-! ## Decomposition of the three merge paths -/

theorem allOfGo_cons (spec : Spec) (f : Nat) (acc : Schema) (m : SchemaOrRef)
    (rest : List SchemaOrRef) :
    allOfGo spec (f + 1) acc (m :: rest)
      = match allOfMemberF spec f m with
        | .error e => .error e
        | .ok sub => allOfGo spec f (mergeAllOfInto acc sub) rest := by
  cases m <;> rfl

theorem allOfGo_ok_decomp (spec : Spec) :
    ∀ (fuel : Nat) (acc : Schema) (ms : List SchemaOrRef) (r : Schema),
      allOfGo spec fuel acc ms = .ok r →
      ∃ ss : List Schema, List.Forall₂ (MemberResolves spec) ms ss ∧
        r = ss.foldl mergeAllOfInto acc := by
  intro fuel
  induction fuel with
  | zero =>
    intro acc ms r h
    exact absurd h (by simp [allOfGo])
  | succ n ih =>
    intro acc ms r h
    cases ms with
    | nil =>
      obtain rfl : acc = r := by simpa [allOfGo] using h
      exact ⟨[], List.Forall₂.nil, rfl⟩
    | cons m rest =>
      rw [allOfGo_cons] at h
      cases hm : allOfMemberF spec n m with
      | error e => rw [hm] at h; exact absurd h (by simp)
      | ok sub =>
        rw [hm] at h
        obtain ⟨ss, hf, hr⟩ := ih (mergeAllOfInto acc sub) rest r h
        exact ⟨sub :: ss, List.Forall₂.cons ⟨n, hm⟩ hf, by rw [hr, List.foldl_cons]⟩

theorem resolveAllOf_ok {spec : Spec} {fuel : Nat} {base : Schema}
    {members : List SchemaOrRef} {r : Schema}
    (h : resolveAllOf spec fuel base members = .ok r) :
    ∃ ss : List Schema, List.Forall₂ (MemberResolves spec) members ss ∧
      r = ss.foldl mergeAllOfInto (allOfSeed base) :=
  allOfGo_ok_decomp spec fuel (allOfSeed base) members r h

theorem resolveOneOf_ok {spec : Spec} {base : Schema} {oneOf : List SchemaOrRef}
    {r : Schema} (h : resolveOneOf spec base oneOf = .ok r) :
    ∃ ss, mapME (oneHop spec) oneOf = .ok ss ∧
      r = injectDiscriminator base.discriminator
        ((oneOfSeed base).setOneOfVariants (some (mkVariants "Variant" 0 ss))) := by
  rw [resolveOneOf] at h
  cases hm : mapME (oneHop spec) oneOf with
  | error e => rw [hm] at h; exact absurd h (by simp)
  | ok ss =>
    rw [hm] at h
    exact ⟨ss, rfl, (Except.ok.inj h).symm⟩

theorem resolveAnyOf_ok {spec : Spec} {ho : List String → List String} {base : Schema}
    {anyOf : List SchemaOrRef} {r : Schema}
    (h : resolveAnyOf spec ho base anyOf = .ok r) :
    ∃ ss, mapME (oneHop spec) anyOf = .ok ss ∧
      r = (((anyOfSeed base).setAnyOfVariants
        (some (mkVariants "Option" 0 ss))).setProperties
        (collectProps ss)).setRequired (ho (collectReq ss)) := by
  rw [resolveAnyOf] at h
  cases hm : mapME (oneHop spec) anyOf with
  | error e => rw [hm] at h; exact absurd h (by simp)
  | ok ss =>
    rw [hm] at h
    exact ⟨ss, rfl, (Except.ok.inj h).symm⟩

theorem resolveSchema_eq_core (spec : Spec) (ho : List String → List String)
    (fuel : Nat) (sor : SchemaOrRef) (s : Schema)
    (h : dispatchSource spec sor = .ok s) :
    resolveSchema spec ho fuel sor = resolveSchemaCore spec ho fuel s := by
  cases sor with
  | schema s' =>
    obtain rfl : s' = s := Except.ok.inj h
    rfl
  | ref rr =>
    have h' : resolveReference spec rr = .ok s := h
    simp [resolveSchema, h']

theorem resolveSchemaCore_cases {spec : Spec} {ho : List String → List String}
    {fuel : Nat} {s r : Schema} (h : resolveSchemaCore spec ho fuel s = .ok r) :
    (s.allOf ≠ [] ∧ resolveAllOf spec fuel s s.allOf = .ok r) ∨
    (s.allOf = [] ∧ s.oneOf ≠ [] ∧ resolveOneOf spec s s.oneOf = .ok r) ∨
    (s.allOf = [] ∧ s.oneOf = [] ∧ s.anyOf ≠ [] ∧
      resolveAnyOf spec ho s s.anyOf = .ok r) ∨
    (s.allOf = [] ∧ s.oneOf = [] ∧ s.anyOf = [] ∧ r = s) := by
  rw [resolveSchemaCore] at h
  cases hall : s.allOf with
  | cons a as =>
    rw [hall] at h
    simp only [List.isEmpty_cons, Bool.false_eq_true, not_false_eq_true, if_true] at h
    exact Or.inl ⟨by simp, h⟩
  | nil =>
    rw [hall] at h
    simp only [List.isEmpty_nil, not_true, if_false] at h
    cases hone : s.oneOf with
    | cons a as =>
      rw [hone] at h
      simp only [List.isEmpty_cons, Bool.false_eq_true, not_false_eq_true, if_true] at h
      exact Or.inr (Or.inl ⟨rfl, by simp, h⟩)
    | nil =>
      rw [hone] at h
      simp only [List.isEmpty_nil, not_true, if_false] at h
      cases hany : s.anyOf with
      | cons a as =>
        rw [hany] at h
        simp only [List.isEmpty_cons, Bool.false_eq_true, not_false_eq_true, if_true] at h
        exact Or.inr (Or.inr (Or.inl ⟨rfl, rfl, by simp, h⟩))
      | nil =>
        rw [hany] at h
        simp only [List.isEmpty_nil, not_true, if_false] at h
        exact Or.inr (Or.inr (Or.inr ⟨rfl, rfl, rfl, (Except.ok.inj h).symm⟩))

theorem injectDiscriminator_on_empty (d : Option Discriminator) (s : Schema)
    (hp : s.properties = []) (hr : s.required = []) :
    (injectDiscriminator d s).properties
      = (match d with
         | none => []
         | some d => [(d.propertyName, .schema stringPropSchema)]) ∧
    (injectDiscriminator d s).required
      = (match d with
         | none => []
         | some d => [d.propertyName]) := by
  cases d with
  | none => exact ⟨hp, hr⟩
  | some d =>
    rw [injectDiscriminator]
    have hget : imGet s.properties d.propertyName = none := by rw [hp]; rfl
    simp only [hget, Option.isSome_none, Bool.false_eq_true, if_false]
    have hins : imInsert s.properties d.propertyName (.schema stringPropSchema)
        = [(d.propertyName, .schema stringPropSchema)] := by
      rw [hp]; rfl
    rw [hins]
    have hs1r : (s.setProperties
        [(d.propertyName, .schema stringPropSchema)]).required = [] :=
      ((setProperties_proj s _).2.1).trans hr
    rw [hs1r]
    simp only [List.not_mem_nil, if_false, List.nil_append]
    exact ⟨((setRequired_proj _ _).2.1).trans (setProperties_proj s _).1,
      (setRequired_proj _ _).1⟩

/-- C1 (amended; the original claim is false): on every successful
resolution the dispatched composition list and all higher-priority lists
are empty on the result, but a lower-priority list survives untouched: the
result of the `allOf` path carries the input's `oneOf`/`anyOf` verbatim,
and the `oneOf` path carries the input's `anyOf`.  With at most one
composition keyword declared, all three lists are empty on the result. -/
theorem c1_composition_lists_on_result (spec : Spec) (ho : List String → List String)
    (fuel : Nat) (sor : SchemaOrRef) (s r : Schema)
    (hsrc : dispatchSource spec sor = .ok s)
    (hres : resolveSchema spec ho fuel sor = .ok r) :
    r.allOf = [] ∧
    (s.allOf = [] → r.oneOf = []) ∧
    (s.allOf ≠ [] → r.oneOf = s.oneOf) ∧
    (s.allOf = [] ∧ s.oneOf = [] → r.anyOf = []) ∧
    (¬ (s.allOf = [] ∧ s.oneOf = []) → r.anyOf = s.anyOf) := by
  rw [resolveSchema_eq_core spec ho fuel sor s hsrc] at hres
  rcases resolveSchemaCore_cases hres with
    ⟨hne, hall⟩ | ⟨h1, hne, hone⟩ | ⟨h1, h2, hne, hany⟩ | ⟨h1, h2, h3, rfl⟩
  · obtain ⟨ss, _, rfl⟩ := resolveAllOf_ok hall
    obtain ⟨f1, f2, f3, _⟩ := foldl_merge_stable ss (allOfSeed s)
    obtain ⟨_, _, _, _, _, _, s7, s8, s9⟩ := allOfSeed_proj s
    exact ⟨by rw [f1, s7], fun hc => absurd hc hne, fun _ => by rw [f2, s8],
      fun hc => absurd hc.1 hne, fun _ => by rw [f3, s9]⟩
  · obtain ⟨ss, _, rfl⟩ := resolveOneOf_ok hone
    obtain ⟨_, i2, i3, i4, _⟩ := injectDiscriminator_proj s.discriminator
      ((oneOfSeed s).setOneOfVariants (some (mkVariants "Variant" 0 ss)))
    obtain ⟨_, _, _, _, v5, v6, v7⟩ :=
      setOneOfVariants_proj (oneOfSeed s) (some (mkVariants "Variant" 0 ss))
    obtain ⟨_, _, _, _, o5, o6, o7⟩ := oneOfSeed_proj s
    exact ⟨by rw [i2, v5, o5, h1], fun _ => by rw [i3, v6, o6],
      fun hc => absurd h1 hc, fun hc => absurd hc.2 hne,
      fun _ => by rw [i4, v7, o7]⟩
  · obtain ⟨ss, _, rfl⟩ := resolveAnyOf_ok hany
    obtain ⟨_, _, _, r4, r5, r6, _, _⟩ :=
      setRequired_proj (((anyOfSeed s).setAnyOfVariants
        (some (mkVariants "Option" 0 ss))).setProperties (collectProps ss))
        (ho (collectReq ss))
    obtain ⟨_, _, _, p4, p5, p6, _, _⟩ :=
      setProperties_proj ((anyOfSeed s).setAnyOfVariants
        (some (mkVariants "Option" 0 ss))) (collectProps ss)
    obtain ⟨_, _, _, _, a5, a6, a7⟩ :=
      setAnyOfVariants_proj (anyOfSeed s) (some (mkVariants "Option" 0 ss))
    obtain ⟨_, _, _, y4, y5, y6⟩ := anyOfSeed_proj s
    exact ⟨by rw [r4, p4, a5, y4, h1], fun _ => by rw [r5, p5, a6, y5, h2],
      fun hc => absurd h1 hc, fun _ => by rw [r6, p6, a7, y6],
      fun hc => absurd ⟨h1, h2⟩ hc⟩
  · exact ⟨h1, fun _ => h2, fun hc => absurd h1 hc, fun _ => h3,
      fun hc => absurd ⟨h1, h2⟩ hc⟩

/-- C1 counterexample: a schema declaring both `allOf` and `oneOf` resolves
successfully, but the result still carries the unresolved `oneOf` list —
not all three composition lists are empty on the result. -/
theorem c1_counterexample :
    bothComp.allOf ≠ [] ∧ bothComp.oneOf ≠ [] ∧
    (resolveSchema specNC id 5 (.schema bothComp)).map Schema.oneOf
      = .ok [.schema Schema.empty] ∧
    (Except.ok [SchemaOrRef.schema Schema.empty] : Except RErr (List SchemaOrRef))
      ≠ .ok [] := by
  refine ⟨?_, ?_, rfl, ?_⟩
  · intro h; exact absurd h (by simp [bothComp, Schema.allOf])
  · intro h; exact absurd h (by simp [bothComp, Schema.oneOf])
  · intro h
    have := Except.ok.inj h
    simp at this

/-- C1 witness: the amended theorem instantiated on the `allOf`+`oneOf`
schema — the result's `allOf` is cleared while its `oneOf` survives. -/
theorem c1_witness :
    resolveSchema specNC id 5 (.schema bothComp) = .ok bothCompResolved ∧
    bothCompResolved.allOf = [] ∧ bothCompResolved.oneOf = bothComp.oneOf ∧
    bothCompResolved.anyOf = bothComp.anyOf := by
  have h := c1_composition_lists_on_result specNC id 5 (.schema bothComp)
    bothComp bothCompResolved rfl rfl
  have hne : bothComp.allOf ≠ [] := by simp [bothComp, Schema.allOf]
  exact ⟨rfl, h.1, h.2.2.1 hne, h.2.2.2.2 (fun hc => hne hc.1)⟩

/-- C2 (amended; the original claim is false): the `oneOf` path seeds
`properties`/`required` EMPTY — the combining schema's own directly
declared properties and required names are dropped, not kept; the only
content of the result's `properties`/`required` is the injected
discriminator property (when a discriminator is declared). -/
theorem c2_oneOf_properties_required (spec : Spec) (ho : List String → List String)
    (fuel : Nat) (s r : Schema)
    (h1 : s.allOf = []) (hne : s.oneOf ≠ [])
    (hres : resolveSchema spec ho fuel (.schema s) = .ok r) :
    (s.discriminator = none → r.properties = [] ∧ r.required = []) ∧
    (∀ d, s.discriminator = some d →
      r.properties = [(d.propertyName, .schema stringPropSchema)] ∧
      r.required = [d.propertyName]) := by
  have hcore : resolveSchemaCore spec ho fuel s = .ok r := hres
  rcases resolveSchemaCore_cases hcore with
    ⟨hne', _⟩ | ⟨_, _, hone⟩ | ⟨_, h2, _, _⟩ | ⟨_, h2, _, _⟩
  · exact absurd h1 hne'
  · obtain ⟨ss, _, rfl⟩ := resolveOneOf_ok hone
    have hXp : ((oneOfSeed s).setOneOfVariants
        (some (mkVariants "Variant" 0 ss))).properties = [] :=
      ((setOneOfVariants_proj _ _).2.1).trans (oneOfSeed_proj s).2.2.2.1
    have hXr : ((oneOfSeed s).setOneOfVariants
        (some (mkVariants "Variant" 0 ss))).required = [] :=
      ((setOneOfVariants_proj _ _).2.2.1).trans (oneOfSeed_proj s).2.2.1
    obtain ⟨hp, hr⟩ := injectDiscriminator_on_empty s.discriminator _ hXp hXr
    constructor
    · intro hd
      rw [hd] at hp hr
      rw [hd]
      exact ⟨by simpa using hp, by simpa using hr⟩
    · intro d hd
      rw [hd] at hp hr
      rw [hd]
      exact ⟨by simpa using hp, by simpa using hr⟩
  · exact absurd h2 hne
  · exact absurd h2 hne

/-- C2 counterexample: a combining schema declaring `properties:{a}` and
`required:[a]` plus a `oneOf` resolves to a schema with EMPTY properties
and required — the combining schema's own declarations are dropped. -/
theorem c2_counterexample :
    oneOfBase.properties = [("a", propStr)] ∧ oneOfBase.required = ["a"] ∧
    resolveSchema specNC id 5 (.schema oneOfBase) = .ok oneOfBaseResolved ∧
    oneOfBaseResolved.properties = [] ∧ oneOfBaseResolved.required = [] := by
  exact ⟨rfl, rfl, rfl, rfl, rfl⟩

/-- C2 witness: the amended theorem instantiated on `oneOfBase` (no
discriminator — the result's properties and required are empty). -/
theorem c2_witness :
    oneOfBase.allOf = [] ∧ oneOfBase.oneOf ≠ [] ∧
    oneOfBaseResolved.properties = [] ∧ oneOfBaseResolved.required = [] := by
  have h := c2_oneOf_properties_required specNC id 5 oneOfBase oneOfBaseResolved
    rfl (by simp [oneOfBase, Schema.oneOf]) rfl
  exact ⟨rfl, by simp [oneOfBase, Schema.oneOf], (h.1 rfl).1, (h.1 rfl).2⟩

/-- C10: whenever `resolve_schema` takes any of the three composition
paths, the result's `type` is forced to `"object"`, regardless of the
members' own types. -/
theorem c10_composition_forces_object_type (spec : Spec)
    (ho : List String → List String) (fuel : Nat) (sor : SchemaOrRef) (s r : Schema)
    (hsrc : dispatchSource spec sor = .ok s)
    (hcomp : s.allOf ≠ [] ∨ s.oneOf ≠ [] ∨ s.anyOf ≠ [])
    (hres : resolveSchema spec ho fuel sor = .ok r) :
    r.schemaType = some "object" := by
  rw [resolveSchema_eq_core spec ho fuel sor s hsrc] at hres
  rcases resolveSchemaCore_cases hres with
    ⟨_, hall⟩ | ⟨_, _, hone⟩ | ⟨_, _, _, hany⟩ | ⟨h1, h2, h3, rfl⟩
  · obtain ⟨ss, _, rfl⟩ := resolveAllOf_ok hall
    exact ((foldl_merge_stable ss (allOfSeed s)).2.2.2).trans (allOfSeed_proj s).1
  · obtain ⟨ss, _, rfl⟩ := resolveOneOf_ok hone
    exact ((injectDiscriminator_proj _ _).1).trans
      (((setOneOfVariants_proj _ _).2.2.2.1).trans (oneOfSeed_proj s).1)
  · obtain ⟨ss, _, rfl⟩ := resolveAnyOf_ok hany
    exact ((setRequired_proj _ _).2.2.1).trans
      (((setProperties_proj _ _).2.2.1).trans
        (((setAnyOfVariants_proj _ _).2.2.2.1).trans (anyOfSeed_proj s).1))
  · rcases hcomp with hc | hc | hc
    · exact absurd h1 hc
    · exact absurd h2 hc
    · exact absurd h3 hc

/-- C10 witness: an `anyOf` whose variants are a string schema and a number
schema still resolves to a schema typed `"object"`. -/
theorem c10_witness :
    (anyStrNum.allOf ≠ [] ∨ anyStrNum.oneOf ≠ [] ∨ anyStrNum.anyOf ≠ []) ∧
    (match resolveSchema specNC id 5 (.schema anyStrNum) with
     | .ok r => r.schemaType = some "object"
     | .error _ => False) := by
  have hc : anyStrNum.anyOf ≠ [] := by simp [anyStrNum, Schema.anyOf]
  refine ⟨Or.inr (Or.inr hc), ?_⟩
  exact c10_composition_forces_object_type specNC id 5 (.schema anyStrNum)
    anyStrNum _ rfl (Or.inr (Or.inr hc)) rfl


theorem foldl_dedupAppend (ss : List Schema) :
    ∀ acc : List String,
      ss.foldl (fun l s => dedupAppend l s.required) acc
        = dedupAppend acc (ss.flatMap Schema.required) := by
  induction ss with
  | nil => intro acc; rfl
  | cons s ss ih =>
    intro acc
    rw [List.foldl_cons, ih, List.flatMap_cons, dedupAppend_append]

theorem foldl_insertAllProps (ss : List Schema) :
    ∀ m : List (String × SchemaOrRef),
      ss.foldl (fun m s => insertAll m s.properties) m
        = insertAll m (ss.flatMap Schema.properties) := by
  induction ss with
  | nil => intro m; rfl
  | cons s ss ih =>
    intro m
    rw [List.foldl_cons, ih, List.flatMap_cons, insertAll_append]

theorem collectReq_eq (ss : List Schema) :
    collectReq ss = firstSeenDedup (ss.flatMap Schema.required) := by
  rw [collectReq, foldl_dedupAppend, dedupAppend_nil_eq_firstSeenDedup]

theorem collectProps_eq (ss : List Schema) :
    collectProps ss = insertAll [] (ss.flatMap Schema.properties) := by
  rw [collectProps, foldl_insertAllProps]

theorem mkVariants_get? (p : String) (ss : List Schema) :
    ∀ j i, (mkVariants p j ss).get? i
      = (ss.get? i).map (fun v => (v.title.getD (p ++ toString (j + i + 1)), v)) := by
  induction ss with
  | nil => intro j i; cases i <;> rfl
  | cons v vs ih =>
    intro j i
    cases i with
    | zero => rfl
    | succ i =>
      rw [show (mkVariants p j (v :: vs)).get? (i + 1)
          = (mkVariants p (j + 1) vs).get? i from rfl]
      rw [show (v :: vs).get? (i + 1) = vs.get? i from rfl]
      rw [ih (j + 1) i]
      rw [show j + 1 + i + 1 = j + (i + 1) + 1 by omega]

theorem setRequired_setRequired (x : Schema) (v w : List String) :
    (x.setRequired v).setRequired w = x.setRequired w := by
  cases x
  rfl

theorem resultUpToRequiredPerm_refl (x : Except RErr Schema) :
    ResultUpToRequiredPerm x x := by
  cases x with
  | ok a => exact ⟨List.Perm.refl _, rfl⟩
  | error e => rfl

/-! ## Claim theorem: C4 -/

/-- C4: the `allOf` merge processes members in list order — each member
resolved (recursing through nested `allOf`), the result's property map is
the last-write-wins view of the members' properties in order, `required` is
the first-seen deduplication of the members' required lists in order, and
`title`/`description`/`example` are the combining schema's own value,
otherwise the first member value present. -/
theorem c4_allOf_merge_order (spec : Spec) (fuel : Nat) (base : Schema)
    (members : List SchemaOrRef) (r : Schema)
    (hres : resolveAllOf spec fuel base members = .ok r) :
    ∃ ss : List Schema, List.Forall₂ (MemberResolves spec) members ss ∧
      (∀ k, imGet r.properties k = lookupLast (ss.flatMap Schema.properties) k) ∧
      r.required = firstSeenDedup (ss.flatMap Schema.required) ∧
      r.required.Nodup ∧
      r.title = fillMeta base.title (firstSome (ss.map Schema.title)) ∧
      r.description = fillMeta base.description (firstSome (ss.map Schema.description)) ∧
      r.exampleVal = fillMeta base.exampleVal (firstSome (ss.map Schema.exampleVal)) := by
  obtain ⟨ss, hf, rfl⟩ := resolveAllOf_ok hres
  obtain ⟨_, s2, s3, s4, s5, s6, _, _, _⟩ := allOfSeed_proj base
  refine ⟨ss, hf, ?_, ?_, ?_, ?_, ?_, ?_⟩
  · intro k
    rw [foldl_merge_properties, s6, imGet_insertAll,
      show imGet ([] : List (String × SchemaOrRef)) k = none from rfl, fillMeta_none]
  · rw [foldl_merge_required, s5, dedupAppend_nil_eq_firstSeenDedup]
  · rw [foldl_merge_required, s5, dedupAppend_nil_eq_firstSeenDedup]
    exact nodup_firstSeenDedup _
  · rw [foldl_merge_title, s2]
  · rw [foldl_merge_description, s3]
  · rw [foldl_merge_exampleVal, s4]

/-- C4 witness: §8's `allOf` union and override examples — `allOf:[A,B]`
yields properties `x,y` and required `[x,y]`; when both members declare
`x`, the later member's definition wins. -/
theorem c4_witness :
    resolveSchema specNC id 5 (.schema allOfAB) = .ok allOfABResolved ∧
    allOfABResolved.properties = [("x", propInt), ("y", propStr)] ∧
    allOfABResolved.required = ["x", "y"] ∧
    resolveSchema specNC id 5 (.schema allOfOverride) = .ok allOfOverrideResolved ∧
    imGet allOfOverrideResolved.properties "x" = some propStr ∧
    allOfOverrideResolved.required = ["x"] ∧
    (∃ ss : List Schema, List.Forall₂ (MemberResolves specNC) allOfAB.allOf ss ∧
      (∀ k, imGet allOfABResolved.properties k
        = lookupLast (ss.flatMap Schema.properties) k) ∧
      allOfABResolved.required = firstSeenDedup (ss.flatMap Schema.required) ∧
      allOfABResolved.required.Nodup ∧
      allOfABResolved.title = fillMeta allOfAB.title (firstSome (ss.map Schema.title)) ∧
      allOfABResolved.description
        = fillMeta allOfAB.description (firstSome (ss.map Schema.description)) ∧
      allOfABResolved.exampleVal
        = fillMeta allOfAB.exampleVal (firstSome (ss.map Schema.exampleVal))) := by
  exact ⟨rfl, rfl, rfl, rfl, rfl, rfl,
    c4_allOf_merge_order specNC 5 allOfAB allOfAB.allOf allOfABResolved rfl⟩

/-! ## Claim theorems: C5, C6, C3 -/

/-- C5: the `anyOf` merge's properties are the last-write-wins union of
every variant's properties in declaration order, and its `required` is the
deduplicated union (set semantics) of every variant's required names — a
name required by any one variant is required in the merged shape. -/
theorem c5_anyOf_union (spec : Spec) (ho : List String → List String)
    (fuel : Nat) (s r : Schema)
    (hadm : AdmissibleOrder ho) (h1 : s.allOf = []) (h2 : s.oneOf = [])
    (hne : s.anyOf ≠ [])
    (hres : resolveSchema spec ho fuel (.schema s) = .ok r) :
    ∃ ss, mapME (oneHop spec) s.anyOf = .ok ss ∧
      (∀ k, imGet r.properties k = lookupLast (ss.flatMap Schema.properties) k) ∧
      (∀ n, n ∈ r.required ↔ ∃ v ∈ ss, n ∈ v.required) ∧
      r.required.Nodup := by
  have hcore : resolveSchemaCore spec ho fuel s = .ok r := hres
  rcases resolveSchemaCore_cases hcore with
    ⟨hne', _⟩ | ⟨_, hne', _⟩ | ⟨_, _, _, hany⟩ | ⟨_, _, h3, _⟩
  · exact absurd h1 hne'
  · exact absurd h2 hne'
  · obtain ⟨ss, hm, rfl⟩ := resolveAnyOf_ok hany
    have hprops : ((((anyOfSeed s).setAnyOfVariants
        (some (mkVariants "Option" 0 ss))).setProperties
        (collectProps ss)).setRequired (ho (collectReq ss))).properties
        = collectProps ss :=
      ((setRequired_proj _ _).2.1).trans (setProperties_proj _ _).1
    have hreq : ((((anyOfSeed s).setAnyOfVariants
        (some (mkVariants "Option" 0 ss))).setProperties
        (collectProps ss)).setRequired (ho (collectReq ss))).required
        = ho (collectReq ss) :=
      (setRequired_proj _ _).1
    refine ⟨ss, hm, ?_, ?_, ?_⟩
    · intro k
      rw [hprops, collectProps_eq, imGet_insertAll,
        show imGet ([] : List (String × SchemaOrRef)) k = none from rfl, fillMeta_none]
    · intro n
      rw [hreq, (hadm (collectReq ss)).mem_iff, collectReq_eq,
        mem_firstSeenDedup, List.mem_flatMap]
    · rw [hreq]
      exact ((hadm (collectReq ss)).nodup_iff).mpr
        (collectReq_eq ss ▸ nodup_firstSeenDedup _)
  · exact absurd h3 hne

/-- C5 witness: §8's required-union example `anyOf:[{required:[a]},
{required:[b]}]` — the merged `required` contains exactly `a` and `b`. -/
theorem c5_witness :
    resolveSchema specNC id 5 (.schema anyAB) = .ok anyABResolved ∧
    anyABResolved.required = ["a", "b"] ∧
    (∃ ss, mapME (oneHop specNC) anyAB.anyOf = .ok ss ∧
      (∀ k, imGet anyABResolved.properties k
        = lookupLast (ss.flatMap Schema.properties) k) ∧
      (∀ n, n ∈ anyABResolved.required ↔ ∃ v ∈ ss, n ∈ v.required) ∧
      anyABResolved.required.Nodup) := by
  refine ⟨rfl, rfl, ?_⟩
  exact c5_anyOf_union specNC id 5 anyAB anyABResolved
    (fun l => List.Perm.refl l) rfl rfl (by simp [anyAB, Schema.anyOf]) rfl

/-- C6: the `oneOf` merge records one `(variant_name, schema)` pair per
member in declaration order — the member's own title when present, else
`Variant<k>` with `k` starting at 1 — and a declared discriminator injects
a string-typed property of that name exactly once into `properties` and
`required`. -/
theorem c6_oneOf_variants (spec : Spec) (ho : List String → List String)
    (fuel : Nat) (s r : Schema)
    (h1 : s.allOf = []) (hne : s.oneOf ≠ [])
    (hres : resolveSchema spec ho fuel (.schema s) = .ok r) :
    ∃ ss, mapME (oneHop spec) s.oneOf = .ok ss ∧
      r.oneOfVariants = some (mkVariants "Variant" 0 ss) ∧
      (∀ i, (mkVariants "Variant" 0 ss).get? i
        = (ss.get? i).map (fun v => (v.title.getD ("Variant" ++ toString (i + 1)), v))) ∧
      (s.discriminator = none → r.properties = [] ∧ r.required = []) ∧
      (∀ d, s.discriminator = some d →
        r.properties = [(d.propertyName, .schema stringPropSchema)] ∧
        r.required = [d.propertyName]) := by
  have hcore : resolveSchemaCore spec ho fuel s = .ok r := hres
  rcases resolveSchemaCore_cases hcore with
    ⟨hne', _⟩ | ⟨_, _, hone⟩ | ⟨_, h2, _, _⟩ | ⟨_, h2, _, _⟩
  · exact absurd h1 hne'
  · obtain ⟨ss, hm, rfl⟩ := resolveOneOf_ok hone
    have hXp : ((oneOfSeed s).setOneOfVariants
        (some (mkVariants "Variant" 0 ss))).properties = [] :=
      ((setOneOfVariants_proj _ _).2.1).trans (oneOfSeed_proj s).2.2.2.1
    have hXr : ((oneOfSeed s).setOneOfVariants
        (some (mkVariants "Variant" 0 ss))).required = [] :=
      ((setOneOfVariants_proj _ _).2.2.1).trans (oneOfSeed_proj s).2.2.1
    obtain ⟨hp, hr⟩ := injectDiscriminator_on_empty s.discriminator _ hXp hXr
    refine ⟨ss, hm, ?_, ?_, ?_, ?_⟩
    · exact ((injectDiscriminator_proj _ _).2.2.2.2).trans (setOneOfVariants_proj _ _).1
    · intro i
      rw [mkVariants_get? "Variant" ss 0 i]
      simp only [Nat.zero_add]
    · intro hd
      rw [hd] at hp hr
      rw [hd]
      exact ⟨by simpa using hp, by simpa using hr⟩
    · intro d hd
      rw [hd] at hp hr
      rw [hd]
      exact ⟨by simpa using hp, by simpa using hr⟩
  · exact absurd h2 hne
  · exact absurd h2 hne

/-- C6 witness: §8's variant-naming example — `oneOf:[{title:"Dog"}, {}]`
with discriminator `petType` yields variant names `["Dog","Variant2"]`, a
string-typed `petType` property, and `petType` in `required`. -/
theorem c6_witness :
    resolveSchema specNC id 5 (.schema petBase) = .ok petResolved ∧
    petResolved.oneOfVariants = some [("Dog", dogSchema), ("Variant2", Schema.empty)] ∧
    petResolved.properties = [("petType", .schema stringPropSchema)] ∧
    petResolved.required = ["petType"] ∧
    (∃ ss, mapME (oneHop specNC) petBase.oneOf = .ok ss ∧
      petResolved.oneOfVariants = some (mkVariants "Variant" 0 ss) ∧
      (∀ i, (mkVariants "Variant" 0 ss).get? i
        = (ss.get? i).map (fun v => (v.title.getD ("Variant" ++ toString (i + 1)), v))) ∧
      (petBase.discriminator = none →
        petResolved.properties = [] ∧ petResolved.required = []) ∧
      (∀ d, petBase.discriminator = some d →
        petResolved.properties = [(d.propertyName, .schema stringPropSchema)] ∧
        petResolved.required = [d.propertyName])) := by
  refine ⟨rfl, rfl, rfl, rfl, ?_⟩
  exact c6_oneOf_variants specNC id 5 petBase petResolved rfl
    (by simp [petBase, Schema.oneOf]) rfl

/-- C3 (amended; the original claim is false): resolution is deterministic
up to the order of the `required` list — for any two admissible hash-set
iteration orders the results agree except that the `required` lists may be
different permutations of each other (the `anyOf` path's `required` order
comes from `HashSet` iteration); all other paths are fully deterministic. -/
theorem c3_deterministic_up_to_required_order (spec : Spec)
    (ho1 ho2 : List String → List String) (fuel : Nat) (sor : SchemaOrRef)
    (h1 : AdmissibleOrder ho1) (h2 : AdmissibleOrder ho2) :
    ResultUpToRequiredPerm (resolveSchema spec ho1 fuel sor)
      (resolveSchema spec ho2 fuel sor) := by
  have hcore : ∀ s : Schema,
      ResultUpToRequiredPerm (resolveSchemaCore spec ho1 fuel s)
        (resolveSchemaCore spec ho2 fuel s) := by
    intro s
    rw [resolveSchemaCore, resolveSchemaCore]
    cases hall : s.allOf with
    | cons a as => exact resultUpToRequiredPerm_refl _
    | nil =>
      cases hone : s.oneOf with
      | cons a as => exact resultUpToRequiredPerm_refl _
      | nil =>
        cases hany : s.anyOf with
        | nil => exact resultUpToRequiredPerm_refl _
        | cons a as =>
          simp only [List.isEmpty_nil, not_true, if_false, List.isEmpty_cons,
            Bool.false_eq_true, not_false_eq_true, if_true]
          rw [resolveAnyOf, resolveAnyOf]
          cases hm : mapME (oneHop spec) (a :: as) with
          | error e => exact resultUpToRequiredPerm_refl _
          | ok ss =>
            refine ⟨?_, ?_⟩
            · rw [(setRequired_proj _ _).1, (setRequired_proj _ _).1]
              exact (h1 (collectReq ss)).trans (h2 (collectReq ss)).symm
            · rw [setRequired_setRequired, setRequired_setRequired]
  cases sor with
  | schema s => exact hcore s
  | ref rr =>
    cases hr : resolveReference spec rr with
    | error e =>
      rw [show resolveSchema spec ho1 fuel (.ref rr) = .error e by
        simp [resolveSchema, hr]]
      rw [show resolveSchema spec ho2 fuel (.ref rr) = .error e by
        simp [resolveSchema, hr]]
      exact resultUpToRequiredPerm_refl _
    | ok t =>
      rw [show resolveSchema spec ho1 fuel (.ref rr)
          = resolveSchemaCore spec ho1 fuel t by simp [resolveSchema, hr]]
      rw [show resolveSchema spec ho2 fuel (.ref rr)
          = resolveSchemaCore spec ho2 fuel t by simp [resolveSchema, hr]]
      exact hcore t

/-- C3 counterexample: two admissible iteration orders (identity and
reversal) give structurally different results on
`anyOf:[{required:[a]}, {required:[b]}]` — the `required` lists come out as
`["a","b"]` and `["b","a"]`. -/
theorem c3_counterexample :
    AdmissibleOrder id ∧ AdmissibleOrder List.reverse ∧
    resolveSchema specNC id 5 (.schema anyAB)
      ≠ resolveSchema specNC List.reverse 5 (.schema anyAB) := by
  refine ⟨fun l => List.Perm.refl l, fun l => List.reverse_perm l, fun h => ?_⟩
  have h2 := congrArg (fun e => e.map Schema.required) h
  have h3 : (Except.ok ["a", "b"] : Except RErr (List String)) = .ok ["b", "a"] := h2
  have h4 := Except.ok.inj h3
  simp at h4

/-- C3 witness: the amended determinism theorem instantiated with the
identity and reversal orders on the `anyOf` example. -/
theorem c3_witness :
    ResultUpToRequiredPerm (resolveSchema specNC id 5 (.schema anyAB))
      (resolveSchema specNC List.reverse 5 (.schema anyAB)) :=
  c3_deterministic_up_to_required_order specNC id List.reverse 5 (.schema anyAB)
    (fun l => List.Perm.refl l) (fun l => List.reverse_perm l)

/-! ## Tag-map lemmas (C9) -/

theorem tagLookup_nil (t : String) : tagLookup [] t = [] := rfl

theorem tagLookup_cons (q : String × List (String × String × Operation))
    (rest : List (String × List (String × String × Operation))) (t : String) :
    tagLookup (q :: rest) t = if q.1 = t then q.2 else tagLookup rest t := by
  by_cases hq : q.1 = t
  · simp [tagLookup, List.find?_cons_of_pos, hq]
  · simp [tagLookup, List.find?_cons_of_neg, hq]

theorem tagLookup_map_ne (rest : List (String × List (String × String × Operation)))
    (k t : String) (v : String × String × Operation) (ht : t ≠ k) :
    tagLookup (rest.map (fun q => if q.1 = k then (q.1, q.2 ++ [v]) else q)) t
      = tagLookup rest t := by
  induction rest with
  | nil => rfl
  | cons q rest ih =>
    rw [List.map_cons]
    by_cases hq : q.1 = k
    · have hqt : ¬ q.1 = t := by rw [hq]; exact fun hc => ht hc.symm
      rw [if_pos hq, tagLookup_cons, tagLookup_cons, if_neg hqt, if_neg hqt, ih]
    · rw [if_neg hq, tagLookup_cons, tagLookup_cons]
      by_cases hqt : q.1 = t
      · rw [if_pos hqt, if_pos hqt]
      · rw [if_neg hqt, if_neg hqt, ih]

theorem tagLookup_map_self (rest : List (String × List (String × String × Operation)))
    (k : String) (v : String × String × Operation)
    (h : rest.any (fun q => q.1 = k) = true) :
    tagLookup (rest.map (fun q => if q.1 = k then (q.1, q.2 ++ [v]) else q)) k
      = tagLookup rest k ++ [v] := by
  induction rest with
  | nil => simp at h
  | cons q rest ih =>
    rw [List.map_cons]
    by_cases hq : q.1 = k
    · rw [if_pos hq, tagLookup_cons, tagLookup_cons, if_pos hq, if_pos hq]
    · rw [if_neg hq, tagLookup_cons, tagLookup_cons, if_neg hq, if_neg hq]
      simp only [List.any_cons, Bool.or_eq_true, decide_eq_true_eq] at h
      rcases h with h | h
      · exact absurd h hq
      · exact ih (by simpa using h)

theorem tagLookup_tagPush (acc : List (String × List (String × String × Operation)))
    (k : String) (v : String × String × Operation) (t : String) :
    tagLookup (tagPush acc k v) t
      = if t = k then tagLookup acc t ++ [v] else tagLookup acc t := by
  rw [tagPush]
  split
  · rename_i h
    by_cases ht : t = k
    · rw [if_pos ht, ht, tagLookup_map_self acc k v h]
    · rw [if_neg ht, tagLookup_map_ne acc k t v ht]
  · rename_i h
    by_cases ht : t = k
    · rw [if_pos ht, ht]
      have hnone : tagLookup acc k = [] := by
        rw [tagLookup, List.find?_eq_none.mpr ?_]
        · rfl
        · intro x hx hc
          exact h (List.any_eq_true.mpr ⟨x, hx, hc⟩)
      rw [hnone, tagLookup, List.find?_append, List.find?_eq_none.mpr ?_]
      · simp [List.find?_cons_of_pos]
      · intro x hx hc
        exact h (List.any_eq_true.mpr ⟨x, hx, hc⟩)
    · rw [if_neg ht]
      have hkt : ¬ k = t := fun hc => ht hc.symm
      rw [tagLookup, tagLookup, List.find?_append]
      rw [show List.find? (fun p => p.1 = t) [(k, [v])] = none from by
        simp [List.find?_cons_of_neg, hkt]]
      cases List.find? (fun p => p.1 = t) acc <;> rfl

theorem tagLookup_foldl_tagPush
    (es : List (String × (String × String × Operation))) :
    ∀ (acc : List (String × List (String × String × Operation))) (t : String),
      tagLookup (es.foldl (fun acc e => tagPush acc e.1 e.2) acc) t
        = tagLookup acc t ++ (es.filter (fun e => e.1 = t)).map (·.2) := by
  induction es with
  | nil => intro acc t; simp
  | cons e rest ih =>
    intro acc t
    rw [List.foldl_cons, ih, tagLookup_tagPush]
    by_cases ht : t = e.1
    · rw [if_pos ht]
      rw [show List.filter (fun e => decide (e.1 = t)) (e :: rest)
          = e :: List.filter (fun e => decide (e.1 = t)) rest from by
        simp [List.filter_cons, ht.symm]]
      simp
    · rw [if_neg ht]
      rw [show List.filter (fun e => decide (e.1 = t)) (e :: rest)
          = List.filter (fun e => decide (e.1 = t)) rest from by
        simp [List.filter_cons]
        exact fun hc => ht hc.symm]

theorem foldl_flatMap {α β γ : Type} (l : List α) (g : α → List β)
    (f : γ → β → γ) :
    ∀ init : γ, (l.flatMap g).foldl f init
      = l.foldl (fun acc x => (g x).foldl f acc) init := by
  induction l with
  | nil => intro init; rfl
  | cons x xs ih =>
    intro init
    rw [List.flatMap_cons, List.foldl_append, List.foldl_cons, ih]

theorem getOperationsByTag_eq_stream (spec : Spec) :
    getOperationsByTag spec
      = (entryStream spec).foldl (fun acc e => tagPush acc e.1 e.2) [] := by
  rw [getOperationsByTag, entryStream, foldl_flatMap]
  congr 1
  funext acc pe
  rw [pathEntries, foldl_flatMap]
  congr 1
  funext acc2 ms
  cases hms : ms.2 with
  | none => simp [slotEntries, hms]
  | some op =>
    simp only [hms, slotEntries]
    rw [List.foldl_map]

theorem length_filter_eq_count (l : List String) (t : String) :
    (l.filter (fun x => x = t)).length = l.count t := by
  induction l with
  | nil => rfl
  | cons x xs ih =>
    rw [List.count_cons, List.filter_cons]
    by_cases hx : x = t
    · simp [hx, ih]
    · simp [hx, ih]

theorem filter_length_flatMap {α β : Type} (l : List α) (g : α → List β) (q : β → Bool) :
    ((l.flatMap g).filter q).length
      = (l.map (fun x => ((g x).filter q).length)).sum := by
  induction l with
  | nil => rfl
  | cons x xs ih =>
    rw [List.flatMap_cons, List.filter_append, List.length_append, ih,
      List.map_cons, List.sum_cons]

theorem paths_sum_single (paths : List (String × PathItem))
    (c : String × PathItem → Nat) (p : String) (item : PathItem)
    (hnodup : (paths.map Prod.fst).Nodup)
    (hget : imGet paths p = some item)
    (hzero : ∀ pe, pe.1 ≠ p → c pe = 0) :
    (paths.map c).sum = c (p, item) := by
  induction paths with
  | nil => simp [imGet] at hget
  | cons pe rest ih =>
    rw [List.map_cons, List.sum_cons]
    rw [imGet_cons] at hget
    by_cases hp : pe.1 = p
    · rw [if_pos hp] at hget
      obtain rfl := Option.some.inj hget
      have hrest : (rest.map c).sum = 0 := by
        apply List.sum_eq_zero
        intro x hx
        obtain ⟨pe', hpe', rfl⟩ := List.mem_map.mp hx
        apply hzero
        intro hc
        have hmem : pe'.1 ∈ rest.map Prod.fst := List.mem_map_of_mem _ hpe'
        rw [hc, ← hp] at hmem
        exact (List.nodup_cons.mp hnodup).1 hmem
      rw [hrest]
      obtain ⟨a, b⟩ := pe
      obtain rfl : a = p := hp
      rw [Nat.add_zero]
    · rw [if_neg hp] at hget
      rw [hzero pe hp, Nat.zero_add]
      exact ih (List.nodup_cons.mp hnodup).2 hget

theorem slots_sum_single (item : PathItem) (m : String) (op : Operation)
    (hmem : (m, some op) ∈ methodSlots item)
    (f : String × Option Operation → Nat)
    (hzero : ∀ (m' : String) (o' : Option Operation), m' ≠ m → f (m', o') = 0) :
    ((methodSlots item).map f).sum = f (m, some op) := by
  simp only [methodSlots, List.mem_cons, List.not_mem_nil, or_false,
    Prod.mk.injEq] at hmem
  simp only [methodSlots, List.map_cons, List.map_nil, List.sum_cons, List.sum_nil]
  rcases hmem with ⟨rfl, hop⟩ | ⟨rfl, hop⟩ | ⟨rfl, hop⟩ | ⟨rfl, hop⟩ |
    ⟨rfl, hop⟩ | ⟨rfl, hop⟩ | ⟨rfl, hop⟩ | ⟨rfl, hop⟩
  · rw [hzero "post" item.post (by decide), hzero "put" item.put (by decide),
      hzero "delete" item.delete (by decide), hzero "patch" item.patch (by decide),
      hzero "head" item.head (by decide), hzero "options" item.options (by decide),
      hzero "trace" item.trace (by decide), ← hop]
    omega
  · rw [hzero "get" item.get (by decide), hzero "put" item.put (by decide),
      hzero "delete" item.delete (by decide), hzero "patch" item.patch (by decide),
      hzero "head" item.head (by decide), hzero "options" item.options (by decide),
      hzero "trace" item.trace (by decide), ← hop]
    omega
  · rw [hzero "get" item.get (by decide), hzero "post" item.post (by decide),
      hzero "delete" item.delete (by decide), hzero "patch" item.patch (by decide),
      hzero "head" item.head (by decide), hzero "options" item.options (by decide),
      hzero "trace" item.trace (by decide), ← hop]
    omega
  · rw [hzero "get" item.get (by decide), hzero "post" item.post (by decide),
      hzero "put" item.put (by decide), hzero "patch" item.patch (by decide),
      hzero "head" item.head (by decide), hzero "options" item.options (by decide),
      hzero "trace" item.trace (by decide), ← hop]
    omega
  · rw [hzero "get" item.get (by decide), hzero "post" item.post (by decide),
      hzero "put" item.put (by decide), hzero "delete" item.delete (by decide),
      hzero "head" item.head (by decide), hzero "options" item.options (by decide),
      hzero "trace" item.trace (by decide), ← hop]
    omega
  · rw [hzero "get" item.get (by decide), hzero "post" item.post (by decide),
      hzero "put" item.put (by decide), hzero "delete" item.delete (by decide),
      hzero "patch" item.patch (by decide), hzero "options" item.options (by decide),
      hzero "trace" item.trace (by decide), ← hop]
    omega
  · rw [hzero "get" item.get (by decide), hzero "post" item.post (by decide),
      hzero "put" item.put (by decide), hzero "delete" item.delete (by decide),
      hzero "patch" item.patch (by decide), hzero "head" item.head (by decide),
      hzero "trace" item.trace (by decide), ← hop]
    omega
  · rw [hzero "get" item.get (by decide), hzero "post" item.post (by decide),
      hzero "put" item.put (by decide), hzero "delete" item.delete (by decide),
      hzero "patch" item.patch (by decide), hzero "head" item.head (by decide),
      hzero "options" item.options (by decide), ← hop]
    omega

theorem pathEntries_path (pe : String × PathItem)
    (e : String × (String × String × Operation)) (he : e ∈ pathEntries pe) :
    e.2.1 = pe.1 := by
  rw [pathEntries] at he
  obtain ⟨ms, _, hin⟩ := List.mem_flatMap.mp he
  rw [slotEntries] at hin
  cases hms : ms.2 with
  | none => rw [hms] at hin; simp at hin
  | some op' =>
    rw [hms] at hin
    obtain ⟨t', _, rfl⟩ := List.mem_map.mp hin
    rfl

/-- C9 (amended; the original claim is false for duplicated tag lists):
every operation with an empty tag list is filed under exactly the literal
tag `"Default"`, and in general an operation's entry appears under tag `t`
once per occurrence of `t` in its effective tag list — hence exactly once
per tag when the tag list has no duplicates, but twice under `x` for
`tags:["x","x"]`. -/
theorem c9_operations_by_tag_count (spec : Spec) (p m t : String)
    (item : PathItem) (op : Operation)
    (hnodup : (spec.paths.map Prod.fst).Nodup)
    (hget : imGet spec.paths p = some item)
    (hslot : (m, some op) ∈ methodSlots item) :
    countEntry (tagLookup (getOperationsByTag spec) t) p m = (effTags op).count t := by
  rw [getOperationsByTag_eq_stream, countEntry,
    tagLookup_foldl_tagPush (entryStream spec) [] t, tagLookup_nil, List.nil_append,
    List.filter_map, List.length_map, List.filter_filter]
  rw [entryStream, filter_length_flatMap]
  rw [paths_sum_single spec.paths _ p item hnodup hget ?hz]
  case hz =>
    intro pe hpe
    rw [List.length_eq_zero]
    rw [List.filter_eq_nil_iff]
    intro e he
    have hp := pathEntries_path pe e he
    simp [hp, hpe]
  rw [show pathEntries (p, item) = (methodSlots item).flatMap (slotEntries p) from rfl]
  rw [filter_length_flatMap]
  rw [slots_sum_single item m op hslot _ ?hz2]
  case hz2 =>
    intro m' o' hm'
    rw [List.length_eq_zero, List.filter_eq_nil_iff]
    intro e he
    rw [slotEntries] at he
    cases ho' : o' with
    | none => rw [ho'] at he; simp at he
    | some op' =>
      rw [ho'] at he
      obtain ⟨t', _, rfl⟩ := List.mem_map.mp he
      simp [hm']
  rw [slotEntries]
  simp only [List.filter_map, List.length_map]
  rw [← length_filter_eq_count]
  congr 1
  apply List.filter_congr
  intro x _
  simp [Function.comp]

/-- C9 counterexample: an operation with tag list `["x","x"]` appears TWICE
under `"x"`, not exactly once under each of its tags. -/
theorem c9_counterexample :
    opDup.tags = ["x", "x"] ∧
    countEntry (tagLookup (getOperationsByTag specOps) "x") "/q" "get" = 2 ∧
    (2 : Nat) ≠ 1 := by
  refine ⟨rfl, rfl, by decide⟩

/-- C9 witness: the amended count theorem instantiated on a two-path
document — the untagged operation is filed once under `"Default"` (and zero
times under any other tag), and the `["x","y"]`-tagged operation once under
each of `"x"` and `"y"`. -/
theorem c9_witness :
    countEntry (tagLookup (getOperationsByTag specOps) "Default") "/p" "get"
      = (effTags opNoTags).count "Default" ∧
    (effTags opNoTags).count "Default" = 1 ∧
    countEntry (tagLookup (getOperationsByTag specOps) "x") "/p" "post"
      = (effTags opXY).count "x" ∧
    countEntry (tagLookup (getOperationsByTag specOps) "y") "/p" "post"
      = (effTags opXY).count "y" ∧
    (effTags opXY).count "x" = 1 ∧
    (effTags opXY).count "y" = 1 ∧
    countEntry (tagLookup (getOperationsByTag specOps) "nosuch") "/p" "get"
      = (effTags opNoTags).count "nosuch" ∧
    (effTags opNoTags).count "nosuch" = 0 := by
  refine ⟨c9_operations_by_tag_count specOps "/p" "get" "Default" item1 opNoTags
      (by decide) rfl (by decide), rfl,
    c9_operations_by_tag_count specOps "/p" "post" "x" item1 opXY
      (by decide) rfl (by decide),
    c9_operations_by_tag_count specOps "/p" "post" "y" item1 opXY
      (by decide) rfl (by decide), rfl, rfl,
    c9_operations_by_tag_count specOps "/p" "get" "nosuch" item1 opNoTags
      (by decide) rfl (by decide), rfl⟩

end OpenAPI
